import Mathlib

/-!
# idfilter: a shallow embedding of `idfilter.cpp`

The input buffer (`std::string str`) is a `List Char`; an iterator into it is
the index it points at, so `str.cbegin()` is `0` and `str.cend()`
is `str.length`.  Every recognizer is called with `b ≤ e ≤ str.length`; the
characters it may read are those of the range `[b, e)`.

A loop `for (; i != e; ++i)` over such a range is a structural recursion over
the characters still ahead of `i` (the list `range str i e`), the head of that
list being `*i`; the loop ends normally when the list is empty (`i == e`).

Side effects of an `on_matched` callback are made explicit: a pattern takes
the state of the outside world and returns the new one next to its result.
-/

namespace idfilter

/-- The struct `pattern_interface::match_result`; `pos`, of type `pos_type` in
the source, is an iterator, here the index it points at. -/
structure match_result where
  matched : Bool
  pos : Nat
deriving DecidableEq, Repr

/-- The characters of the iterator range `[b, e)` of the buffer. -/
def range (str : List Char) (b e : Nat) : List Char :=
  (str.drop b).take (e - b)

/-- The virtual `match(begin, end)` of `pattern_interface`, over the buffer the
iterators point into and the state `σ` the callbacks act on. -/
abbrev pattern_interface (σ : Type) :=
  List Char → Nat → Nat → σ → match_result × σ

/-! ## Combinators -/

/-- The `while (m.pos != end)` loop of `n_pattern::match`.  The inner pattern
may succeed without moving, so the loop need not end: it runs on fuel and
`none` means the fuel ran out. -/
def n_pattern.loop {σ : Type} (m_pattern : pattern_interface σ) (str : List Char)
    (e : Nat) : Nat → match_result → σ → Option (match_result × σ)
  | 0, _, _ => none
  | fuel + 1, m, st =>
    if m.pos ≠ e then
      let r := m_pattern str m.pos e st
      if !r.1.matched then some r
      else n_pattern.loop m_pattern str e fuel r.1 r.2
    else some (m, st)

/-- The method `n_pattern::match`.  `match_result m; m.pos = begin;` leaves
`m.matched` uninitialised: `uninit` is the value it happens to hold. -/
def n_pattern {σ : Type} (m_pattern : pattern_interface σ) (uninit : Bool) (fuel : Nat)
    (str : List Char) (b e : Nat) (st : σ) : Option (match_result × σ) :=
  n_pattern.loop m_pattern str e fuel ⟨uninit, b⟩ st

/-- The `for (auto p : m_patterns)` loop of `and_pattern::match`. -/
def and_pattern.loop {σ : Type} (str : List Char) (b e : Nat) :
    List (pattern_interface σ) → match_result → σ → match_result × σ
  | [], m, st => (m, st)
  | p :: ps, m, st =>
    let r := p str m.pos e st
    if !r.1.matched then ({ r.1 with pos := b }, r.2)
    else and_pattern.loop str b e ps r.1 r.2

/-- The method `and_pattern::match`. -/
def and_pattern {σ : Type} (m_patterns : List (pattern_interface σ)) : pattern_interface σ :=
  fun str b e st => and_pattern.loop str b e m_patterns ⟨true, b⟩ st

/-- The `for (auto p : m_patterns)` loop of `or_pattern::match`. -/
def or_pattern.loop {σ : Type} (str : List Char) (b e : Nat) :
    List (pattern_interface σ) → match_result → σ → match_result × σ
  | [], m, st => (m, st)
  | p :: ps, _, st =>
    let r := p str b e st
    if r.1.matched then r
    else or_pattern.loop str b e ps r.1 r.2

/-- The method `or_pattern::match`. -/
def or_pattern {σ : Type} (m_patterns : List (pattern_interface σ)) : pattern_interface σ :=
  fun str b e st => or_pattern.loop str b e m_patterns ⟨false, b⟩ st

/-- The class `fn_pattern<FnT, OnMatchedFnT>`: on a match the callback receives
a copy of `[begin, m.pos)`. -/
def fn_pattern {σ : Type} (m_fn : List Char → Nat → Nat → match_result)
    (m_on_matched_fn : List Char → σ → σ) : pattern_interface σ :=
  fun str b e st =>
    let m := m_fn str b e
    if m.matched then (m, m_on_matched_fn (range str b m.pos) st) else (m, st)

/-- The class `fn_pattern<FnT, void>`: no callback. -/
def fn_pattern_void {σ : Type} (m_fn : List Char → Nat → Nat → match_result) :
    pattern_interface σ :=
  fun str b e st => (m_fn str b e, st)

/-! ## Leaf recognizers -/

/-- The loop of `parse_block_comment`; a `break` that leaves the `switch`
reaches the `break` that leaves the loop. -/
def parse_block_comment.loop : List Char → Nat → Nat → match_result → match_result
  | [], _, _, m => m
  | c :: cs, state, i, m =>
    match state with
    | 0 => if c = '/' then parse_block_comment.loop cs (state + 1) (i + 1) m else m
    | 1 => if c = '*' then parse_block_comment.loop cs (state + 1) (i + 1) m else m
    | 2 =>
      if c = '*' then parse_block_comment.loop cs (state + 1) (i + 1) m
      else parse_block_comment.loop cs state (i + 1) m
    | 3 => if c = '/' then { matched := true, pos := i + 1 } else m
    | _ => m

/-- The function `parse_block_comment`. -/
def parse_block_comment (str : List Char) (b e : Nat) : match_result :=
  parse_block_comment.loop (range str b e) 0 b ⟨false, b⟩

/-- The loop of `parse_line_comment`: the values of `state` and `i` at its exit. -/
def parse_line_comment.loop : List Char → Nat → Nat → Nat × Nat
  | [], state, i => (state, i)
  | c :: cs, state, i =>
    match state with
    | 0 => if c = '/' then parse_line_comment.loop cs (state + 1) (i + 1) else (state, i)
    | 1 => if c = '/' then parse_line_comment.loop cs (state + 1) (i + 1) else (state, i)
    | 2 => if c ≠ '\n' then parse_line_comment.loop cs state (i + 1) else (state, i + 1)
    | _ => (state, i)

/-- The function `parse_line_comment`. -/
def parse_line_comment (str : List Char) (b e : Nat) : match_result :=
  let m : match_result := ⟨false, b⟩
  let r := parse_line_comment.loop (range str b e) 0 b
  if r.1 = 2 then { matched := true, pos := r.2 } else m

/-- The enumerators of `parse_string_literal` and `parse_char_literal`. -/
abbrev literal.FAILED : Int := -1
/-- Initial state of the literal recognizers. -/
abbrev literal.BEGIN : Int := 0
/-- Inside the literal. -/
abbrev literal.NORMAL : Int := 2
/-- After a backslash (never assigned: the assignment follows a `return`). -/
abbrev literal.ESCAPED : Int := 3
/-- After the closing quote. -/
abbrev literal.COMPLETED : Int := 4

open literal in
/-- The loop of `parse_string_literal` with the `m.pos = i` that follows it; the
backslash case is the `return m` inside the loop. -/
def parse_string_literal.loop : List Char → Int → Nat → match_result → match_result
  | [], _, i, m => { m with pos := i }
  | c :: cs, state, i, m =>
    if state = BEGIN then
      if c = '\"' then parse_string_literal.loop cs NORMAL (i + 1) m
      else parse_string_literal.loop cs FAILED (i + 1) { m with matched := false }
    else if state = NORMAL then
      if c = '\\' then m
      else if c = '\"' then
        parse_string_literal.loop cs COMPLETED (i + 1) { m with matched := true }
      else parse_string_literal.loop cs state (i + 1) m
    else if state = ESCAPED then parse_string_literal.loop cs NORMAL (i + 1) m
    else { m with pos := i }

/-- The function `parse_string_literal`. -/
def parse_string_literal (str : List Char) (b e : Nat) : match_result :=
  parse_string_literal.loop (range str b e) literal.BEGIN b ⟨false, b⟩

open literal in
/-- The loop of `parse_char_literal` with the `m.pos = i` that follows it. -/
def parse_char_literal.loop : List Char → Int → Nat → match_result → match_result
  | [], _, i, m => { m with pos := i }
  | c :: cs, state, i, m =>
    if state = BEGIN then
      if c = '\'' then parse_char_literal.loop cs NORMAL (i + 1) m
      else parse_char_literal.loop cs FAILED (i + 1) { m with matched := false }
    else if state = NORMAL then
      if c = '\\' then m
      else if c = '\'' then
        parse_char_literal.loop cs COMPLETED (i + 1) { m with matched := true }
      else parse_char_literal.loop cs state (i + 1) m
    else if state = ESCAPED then parse_char_literal.loop cs NORMAL (i + 1) m
    else { m with pos := i }

/-- The function `parse_char_literal`. -/
def parse_char_literal (str : List Char) (b e : Nat) : match_result :=
  parse_char_literal.loop (range str b e) literal.BEGIN b ⟨false, b⟩

/-- The test of `parse_identifier` in state `BEGIN`. -/
def is_id_first (c : Char) : Bool :=
  (c ≥ 'a' && c ≤ 'z') || (c ≥ 'A' && c ≤ 'Z') || c = '_'

/-- The test of `parse_identifier` in state `REST`. -/
def is_id_rest (c : Char) : Bool :=
  (c ≥ 'a' && c ≤ 'z') || (c ≥ 'A' && c ≤ 'Z') || (c ≥ '0' && c ≤ '9') || c = '_'

/-- The code of `parse_identifier` after its loop. -/
def parse_identifier.finish (state : Int) (i : Nat) (m : match_result) : match_result :=
  if state = 1 then { m with pos := i } else m

/-- The loop of `parse_identifier` (`BEGIN = 0`, `REST = 1`) followed by the code
after it; the failure in `BEGIN` is the `return m` inside the loop. -/
def parse_identifier.loop : List Char → Int → Nat → match_result → match_result
  | [], state, i, m => parse_identifier.finish state i m
  | c :: cs, state, i, m =>
    if state = 0 then
      if is_id_first c then parse_identifier.loop cs 1 (i + 1) { m with matched := true }
      else { m with matched := false }
    else if state = 1 then
      if is_id_rest c then parse_identifier.loop cs 1 (i + 1) m
      else parse_identifier.finish state i m
    else parse_identifier.finish state i m

/-- The function `parse_identifier`. -/
def parse_identifier (str : List Char) (b e : Nat) : match_result :=
  parse_identifier.loop (range str b e) 0 b ⟨false, b⟩

/-- The function `parse_a_char`. -/
def parse_a_char (_str : List Char) (b e : Nat) : match_result :=
  if b ≠ e then ⟨true, b + 1⟩ else ⟨false, e⟩

/-- The function `parse_epsilon`. -/
def parse_epsilon (_str : List Char) (b _e : Nat) : match_result :=
  ⟨true, b⟩

/-! ## Driver -/

/-- Standard output, as the list of the lines written to it. -/
abbrev stdout := List (List Char)

/-- The callback of `p5`: `std::cout << s << std::endl`. -/
def print_line (s : List Char) (out : stdout) : stdout := out ++ [s]

/-- The vector `ps` of `main`. -/
def main.ps : List (pattern_interface stdout) :=
  [fn_pattern_void parse_block_comment,
   fn_pattern_void parse_line_comment,
   fn_pattern_void parse_string_literal,
   fn_pattern_void parse_char_literal,
   fn_pattern parse_identifier print_line,
   fn_pattern_void parse_a_char,
   fn_pattern_void parse_epsilon]

/-- The pattern `po` of `main`. -/
def main.po : pattern_interface stdout := or_pattern main.ps

/-- The call `p->match(str.cbegin(), str.cend())` of `main`, standard output
being empty before it: the result `m` and what has been written. -/
def main.scan (uninit : Bool) (fuel : Nat) (str : List Char) : Option (match_result × stdout) :=
  n_pattern main.po uninit fuel str 0 str.length []

/-- The lines `main` writes on the buffer `str` (the result `m` is dropped). -/
def main (uninit : Bool) (fuel : Nat) (str : List Char) : Option stdout :=
  (main.scan uninit fuel str).map Prod.snd

/-- One iteration of the scan of `str`: applied at `p`, the alternation matches
the span `[p, q)`, which is not empty. -/
def main.span (str : List Char) (p q : Nat) : Prop :=
  p < q ∧ ∀ st : stdout, (main.po str p str.length st).1 = ⟨true, q⟩

/-- The program writes exactly the lines `out` on the buffer `str`: every run
with enough fuel returns, and with that output. -/
def main.writes (str : List Char) (out : stdout) : Prop :=
  ∀ (uninit : Bool) (fuel : Nat), str.length < fuel → main uninit fuel str = some out

/-- Exchange of the two quote characters: a single quote becomes a double quote
and a double quote a single quote; every other character is left as it is. -/
def swap_quotes (c : Char) : Char :=
  if c = '\'' then '\"' else if c = '\"' then '\'' else c

/-- The grammar `[A-Za-z_][A-Za-z0-9_]*`: a letter or an underscore, then
letters, digits and underscores. -/
def is_identifier : List Char → Bool
  | [] => false
  | c :: cs => (c.isAlpha || c == '_') && cs.all (fun d => d.isAlphanum || d == '_')

/-- The operands `ps` of an alternation, applied in order at `(b, e)`, each in the
state the one before left, all fail. -/
def or_pattern.all_fail {σ : Type} (str : List Char) (b e : Nat) :
    List (pattern_interface σ) → σ → Bool
  | [], _ => true
  | p :: ps, st =>
    !(p str b e st).1.matched && or_pattern.all_fail str b e ps (p str b e st).2

/-- The state after the operands `ps` have been applied in order at `(b, e)`. -/
def or_pattern.state_after {σ : Type} (str : List Char) (b e : Nat) :
    List (pattern_interface σ) → σ → σ
  | [], st => st
  | p :: ps, st => or_pattern.state_after str b e ps (p str b e st).2

/-- The operands `ps` of a sequence applied in order from position `q` and state
`st`, each starting where the one before ended: the end position and the state
when all of them match, `none` when one fails. -/
def and_pattern.chain {σ : Type} (str : List Char) (e : Nat) :
    List (pattern_interface σ) → Nat → σ → Option (Nat × σ)
  | [], q, st => some (q, st)
  | p :: ps, q, st =>
    if (p str q e st).1.matched then
      and_pattern.chain str e ps (p str q e st).1.pos (p str q e st).2
    else none

/-- Successive matching applications of the inner pattern of a repetition lead
from position `q` and state `st` to position `q2` and state `st2`; none of them
starts at `e`. -/
inductive n_pattern.iterates {σ : Type} (p : pattern_interface σ) (str : List Char) (e : Nat) :
    Nat → σ → Nat → σ → Prop
  | refl (q : Nat) (st : σ) : n_pattern.iterates p str e q st q st
  | step (q : Nat) (st : σ) (q2 : Nat) (st2 : σ) :
      q ≠ e → (p str q e st).1.matched = true →
      n_pattern.iterates p str e (p str q e st).1.pos (p str q e st).2 q2 st2 →
      n_pattern.iterates p str e q st q2 st2

/-- An operand for examples: it records its tag and the position it is applied
at, and returns the result `m`. -/
def probe (tag : Nat) (m : match_result) : pattern_interface (List (Nat × Nat)) :=
  fun _ b _ st => (m, st ++ [(tag, b)])

/-- The seven leaf recognizers, in the order of the vector `ps` of `main`. -/
def leaves : List (List Char → Nat → Nat → match_result) :=
  [parse_block_comment, parse_line_comment, parse_string_literal, parse_char_literal,
   parse_identifier, parse_a_char, parse_epsilon]

/-- The text on standard output: every line written, followed by a newline. -/
def stdout_text (out : stdout) : List Char :=
  (out.map (fun t => t ++ ['\n'])).flatten

/-! ## Ranges and shifted positions -/

/-- The result `m` seen from a buffer that has `d` more characters in front. -/
def match_result.shift (d : Nat) (m : match_result) : match_result :=
  ⟨m.matched, d + m.pos⟩

@[simp] theorem match_result.shift_matched (d : Nat) (m : match_result) :
    (m.shift d).matched = m.matched := rfl

@[simp] theorem match_result.shift_pos (d : Nat) (m : match_result) :
    (m.shift d).pos = d + m.pos := rfl

theorem range_length_le (str : List Char) (b e : Nat) : (range str b e).length ≤ e - b := by
  simp [range, List.length_take]

theorem range_length (str : List Char) (b e : Nat) (h : e ≤ str.length) :
    (range str b e).length = e - b := by
  simp [range, List.length_take]
  omega

theorem range_append_left (pre s : List Char) (b e : Nat) :
    range (pre ++ s) (pre.length + b) (pre.length + e) = range s b e := by
  simp [range, List.drop_append, Nat.add_sub_add_left]

theorem range_all (s : List Char) : range s 0 s.length = s := by
  simp [range]

theorem range_zero (s : List Char) (e : Nat) : range s 0 e = s.take e := by
  simp [range]

/-! ## The leaf loops on a shifted buffer -/

theorem parse_block_comment_loop_shift (d : Nat) (l : List Char) :
    ∀ (state i : Nat) (m : match_result),
      parse_block_comment.loop l state (d + i) (m.shift d)
        = (parse_block_comment.loop l state i m).shift d := by
  induction l with
  | nil => intro state i m; simp [parse_block_comment.loop]
  | cons c cs ih =>
    intro state i m
    rcases state with _ | _ | _ | _ | n
    · simp only [parse_block_comment.loop]
      split_ifs
      · simpa [Nat.add_assoc] using ih _ _ _
      · rfl
    · simp only [parse_block_comment.loop]
      split_ifs
      · simpa [Nat.add_assoc] using ih _ _ _
      · rfl
    · simp only [parse_block_comment.loop]
      split_ifs
      · simpa [Nat.add_assoc] using ih _ _ _
      · simpa [Nat.add_assoc] using ih _ _ _
    · simp only [parse_block_comment.loop]
      split_ifs
      · simp [match_result.shift, Nat.add_assoc]
      · rfl
    · simp [parse_block_comment.loop]

theorem parse_block_comment_shift (pre s : List Char) (b e : Nat) :
    parse_block_comment (pre ++ s) (pre.length + b) (pre.length + e)
      = (parse_block_comment s b e).shift pre.length := by
  unfold parse_block_comment
  rw [range_append_left]
  exact parse_block_comment_loop_shift pre.length _ 0 b ⟨false, b⟩

theorem parse_line_comment_loop_shift (d : Nat) (l : List Char) :
    ∀ (state i : Nat),
      parse_line_comment.loop l state (d + i)
        = ((parse_line_comment.loop l state i).1, d + (parse_line_comment.loop l state i).2) := by
  induction l with
  | nil => intro state i; simp [parse_line_comment.loop]
  | cons c cs ih =>
    intro state i
    rcases state with _ | _ | _ | n
    · simp only [parse_line_comment.loop]
      split_ifs
      · simpa [Nat.add_assoc] using ih _ _
      · rfl
    · simp only [parse_line_comment.loop]
      split_ifs
      · simpa [Nat.add_assoc] using ih _ _
      · rfl
    · simp only [parse_line_comment.loop]
      split_ifs
      · simpa [Nat.add_assoc] using ih _ _
      · simp [Nat.add_assoc]
    · simp [parse_line_comment.loop]

theorem parse_line_comment_shift (pre s : List Char) (b e : Nat) :
    parse_line_comment (pre ++ s) (pre.length + b) (pre.length + e)
      = (parse_line_comment s b e).shift pre.length := by
  unfold parse_line_comment
  rw [range_append_left, parse_line_comment_loop_shift]
  simp only []
  split_ifs <;> rfl

theorem parse_string_literal_loop_shift (d : Nat) (l : List Char) :
    ∀ (state : Int) (i : Nat) (m : match_result),
      parse_string_literal.loop l state (d + i) (m.shift d)
        = (parse_string_literal.loop l state i m).shift d := by
  induction l with
  | nil => intro state i m; simp [parse_string_literal.loop, match_result.shift]
  | cons c cs ih =>
    intro state i m
    simp only [parse_string_literal.loop]
    split_ifs
    · simpa [Nat.add_assoc] using ih _ _ _
    · simpa [Nat.add_assoc, match_result.shift] using ih _ (i + 1) ⟨false, m.pos⟩
    · rfl
    · simpa [Nat.add_assoc, match_result.shift] using ih _ (i + 1) ⟨true, m.pos⟩
    · simpa [Nat.add_assoc] using ih _ _ _
    · simpa [Nat.add_assoc] using ih _ _ _
    · simp [match_result.shift]

theorem parse_string_literal_shift (pre s : List Char) (b e : Nat) :
    parse_string_literal (pre ++ s) (pre.length + b) (pre.length + e)
      = (parse_string_literal s b e).shift pre.length := by
  unfold parse_string_literal
  rw [range_append_left]
  exact parse_string_literal_loop_shift pre.length _ _ b ⟨false, b⟩

theorem parse_char_literal_loop_shift (d : Nat) (l : List Char) :
    ∀ (state : Int) (i : Nat) (m : match_result),
      parse_char_literal.loop l state (d + i) (m.shift d)
        = (parse_char_literal.loop l state i m).shift d := by
  induction l with
  | nil => intro state i m; simp [parse_char_literal.loop, match_result.shift]
  | cons c cs ih =>
    intro state i m
    simp only [parse_char_literal.loop]
    split_ifs
    · simpa [Nat.add_assoc] using ih _ _ _
    · simpa [Nat.add_assoc, match_result.shift] using ih _ (i + 1) ⟨false, m.pos⟩
    · rfl
    · simpa [Nat.add_assoc, match_result.shift] using ih _ (i + 1) ⟨true, m.pos⟩
    · simpa [Nat.add_assoc] using ih _ _ _
    · simpa [Nat.add_assoc] using ih _ _ _
    · simp [match_result.shift]

theorem parse_char_literal_shift (pre s : List Char) (b e : Nat) :
    parse_char_literal (pre ++ s) (pre.length + b) (pre.length + e)
      = (parse_char_literal s b e).shift pre.length := by
  unfold parse_char_literal
  rw [range_append_left]
  exact parse_char_literal_loop_shift pre.length _ _ b ⟨false, b⟩

theorem parse_identifier_loop_shift (d : Nat) (l : List Char) :
    ∀ (state : Int) (i : Nat) (m : match_result),
      parse_identifier.loop l state (d + i) (m.shift d)
        = (parse_identifier.loop l state i m).shift d := by
  induction l with
  | nil =>
    intro state i m
    simp only [parse_identifier.loop, parse_identifier.finish]
    split_ifs <;> rfl
  | cons c cs ih =>
    intro state i m
    simp only [parse_identifier.loop, parse_identifier.finish]
    split_ifs
    · simpa [Nat.add_assoc, match_result.shift] using ih _ (i + 1) ⟨true, m.pos⟩
    · rfl
    · simpa [Nat.add_assoc] using ih _ _ _
    · rfl
    · rfl

theorem parse_identifier_shift (pre s : List Char) (b e : Nat) :
    parse_identifier (pre ++ s) (pre.length + b) (pre.length + e)
      = (parse_identifier s b e).shift pre.length := by
  unfold parse_identifier
  rw [range_append_left]
  exact parse_identifier_loop_shift pre.length _ _ b ⟨false, b⟩

theorem parse_a_char_shift (pre s : List Char) (b e : Nat) :
    parse_a_char (pre ++ s) (pre.length + b) (pre.length + e)
      = (parse_a_char s b e).shift pre.length := by
  unfold parse_a_char
  by_cases h : b = e
  · simp [h, match_result.shift]
  · simp [h, match_result.shift, Nat.add_assoc]

/-! ## What the leaf loops return -/

/-- The block-comment loop either leaves `m` as it was or matches past `i`. -/
theorem parse_block_comment_loop_cases (l : List Char) :
    ∀ (state i : Nat) (m : match_result),
      parse_block_comment.loop l state i m = m ∨
        ((parse_block_comment.loop l state i m).matched = true ∧
          i < (parse_block_comment.loop l state i m).pos ∧
          (parse_block_comment.loop l state i m).pos ≤ i + l.length) := by
  induction l with
  | nil => intro state i m; left; rfl
  | cons c cs ih =>
    intro state i m
    rcases state with _ | _ | _ | _ | n
    · simp only [parse_block_comment.loop]
      split_ifs
      · rcases ih (0 + 1) (i + 1) m with h | ⟨h1, h2, h3⟩
        · left; exact h
        · right; refine ⟨h1, by omega, by simp only [List.length_cons]; omega⟩
      · left; rfl
    · simp only [parse_block_comment.loop]
      split_ifs
      · rcases ih (0 + 1 + 1) (i + 1) m with h | ⟨h1, h2, h3⟩
        · left; exact h
        · right; refine ⟨h1, by omega, by simp only [List.length_cons]; omega⟩
      · left; rfl
    · simp only [parse_block_comment.loop]
      split_ifs
      · rcases ih (0 + 1 + 1 + 1) (i + 1) m with h | ⟨h1, h2, h3⟩
        · left; exact h
        · right; refine ⟨h1, by omega, by simp only [List.length_cons]; omega⟩
      · rcases ih (0 + 1 + 1) (i + 1) m with h | ⟨h1, h2, h3⟩
        · left; exact h
        · right; refine ⟨h1, by omega, by simp only [List.length_cons]; omega⟩
    · simp only [parse_block_comment.loop]
      split_ifs
      · right; simp
      · left; rfl
    · left; simp [parse_block_comment.loop]

theorem parse_block_comment_cases (str : List Char) (b e : Nat) :
    parse_block_comment str b e = ⟨false, b⟩ ∨
      ((parse_block_comment str b e).matched = true ∧ b < (parse_block_comment str b e).pos ∧
        (parse_block_comment str b e).pos ≤ b + (range str b e).length) :=
  parse_block_comment_loop_cases (range str b e) 0 b ⟨false, b⟩

/-- The line-comment loop: `state` never decreases, `i` moves by at least the
number of state changes and by at most the number of characters. -/
theorem parse_line_comment_loop_bounds (l : List Char) :
    ∀ (state i : Nat),
      state ≤ (parse_line_comment.loop l state i).1 ∧
        i + ((parse_line_comment.loop l state i).1 - state) ≤ (parse_line_comment.loop l state i).2 ∧
        (parse_line_comment.loop l state i).2 ≤ i + l.length := by
  induction l with
  | nil => intro state i; simp [parse_line_comment.loop]
  | cons c cs ih =>
    intro state i
    rcases state with _ | _ | _ | n
    · simp only [parse_line_comment.loop]
      split_ifs
      · have := ih (0 + 1) (i + 1)
        simp only [List.length_cons]; omega
      · simp
    · simp only [parse_line_comment.loop]
      split_ifs
      · have := ih (0 + 1 + 1) (i + 1)
        simp only [List.length_cons]; omega
      · simp
    · simp only [parse_line_comment.loop]
      split_ifs
      · have := ih (0 + 1 + 1) (i + 1)
        simp only [List.length_cons]; omega
      · simp
    · simp [parse_line_comment.loop]

theorem parse_line_comment_cases (str : List Char) (b e : Nat) :
    parse_line_comment str b e = ⟨false, b⟩ ∨
      ((parse_line_comment str b e).matched = true ∧ b < (parse_line_comment str b e).pos ∧
        (parse_line_comment str b e).pos ≤ b + (range str b e).length) := by
  have h := parse_line_comment_loop_bounds (range str b e) 0 b
  unfold parse_line_comment
  simp only []
  split_ifs with h2
  · right
    rw [h2] at h
    refine ⟨rfl, ?_, h.2.2⟩
    show b < (parse_line_comment.loop (range str b e) 0 b).2
    omega
  · left; rfl

/-- The string-literal loop in a state without a `case`, `COMPLETED` and `FAILED`
among them, stops at once. -/
theorem parse_string_literal_loop_stop (l : List Char) (state : Int) (i : Nat)
    (m : match_result) (h0 : state ≠ 0) (h2 : state ≠ 2) (h3 : state ≠ 3) :
    parse_string_literal.loop l state i m = { m with pos := i } := by
  cases l with
  | nil => rfl
  | cons c cs => simp [parse_string_literal.loop, h0, h2, h3]

theorem parse_string_literal_loop_bounds (l : List Char) :
    ∀ (state : Int) (i : Nat) (m : match_result), m.matched = false →
      (parse_string_literal.loop l state i m).matched = true →
        i < (parse_string_literal.loop l state i m).pos ∧
          (parse_string_literal.loop l state i m).pos ≤ i + l.length := by
  induction l with
  | nil => intro state i m hm h; simp [parse_string_literal.loop, hm] at h
  | cons c cs ih =>
    intro state i m hm
    simp only [parse_string_literal.loop, List.length_cons]
    split_ifs
    · intro h; have := ih _ _ _ hm h; omega
    · intro h; have := ih _ (i + 1) { m with matched := false } rfl h; omega
    · intro h; simp [hm] at h
    · intro _
      rw [parse_string_literal_loop_stop _ _ _ _ (by decide) (by decide) (by decide)]
      simp
    · intro h; have := ih _ _ _ hm h; omega
    · intro h; have := ih _ _ _ hm h; omega
    · intro h; simp [hm] at h

theorem parse_string_literal_bounds (str : List Char) (b e : Nat)
    (h : (parse_string_literal str b e).matched = true) :
    b < (parse_string_literal str b e).pos ∧
      (parse_string_literal str b e).pos ≤ b + (range str b e).length :=
  parse_string_literal_loop_bounds (range str b e) _ b ⟨false, b⟩ rfl h

theorem parse_char_literal_loop_stop (l : List Char) (state : Int) (i : Nat)
    (m : match_result) (h0 : state ≠ 0) (h2 : state ≠ 2) (h3 : state ≠ 3) :
    parse_char_literal.loop l state i m = { m with pos := i } := by
  cases l with
  | nil => rfl
  | cons c cs => simp [parse_char_literal.loop, h0, h2, h3]

theorem parse_char_literal_loop_bounds (l : List Char) :
    ∀ (state : Int) (i : Nat) (m : match_result), m.matched = false →
      (parse_char_literal.loop l state i m).matched = true →
        i < (parse_char_literal.loop l state i m).pos ∧
          (parse_char_literal.loop l state i m).pos ≤ i + l.length := by
  induction l with
  | nil => intro state i m hm h; simp [parse_char_literal.loop, hm] at h
  | cons c cs ih =>
    intro state i m hm
    simp only [parse_char_literal.loop, List.length_cons]
    split_ifs
    · intro h; have := ih _ _ _ hm h; omega
    · intro h; have := ih _ (i + 1) { m with matched := false } rfl h; omega
    · intro h; simp [hm] at h
    · intro _
      rw [parse_char_literal_loop_stop _ _ _ _ (by decide) (by decide) (by decide)]
      simp
    · intro h; have := ih _ _ _ hm h; omega
    · intro h; have := ih _ _ _ hm h; omega
    · intro h; simp [hm] at h

theorem parse_char_literal_bounds (str : List Char) (b e : Nat)
    (h : (parse_char_literal str b e).matched = true) :
    b < (parse_char_literal str b e).pos ∧
      (parse_char_literal str b e).pos ≤ b + (range str b e).length :=
  parse_char_literal_loop_bounds (range str b e) _ b ⟨false, b⟩ rfl h

/-- In state `REST` the identifier loop runs over the longest run of identifier
characters. -/
theorem parse_identifier_loop_rest (l : List Char) :
    ∀ (i : Nat) (m : match_result),
      parse_identifier.loop l 1 i m = { m with pos := i + (l.takeWhile is_id_rest).length } := by
  induction l with
  | nil => intro i m; simp [parse_identifier.loop, parse_identifier.finish]
  | cons c cs ih =>
    intro i m
    by_cases h : is_id_rest c = true
    · simp [parse_identifier.loop, h, ih, Nat.add_assoc, Nat.add_comm 1]
    · simp [parse_identifier.loop, parse_identifier.finish, h]

/-- The function `parse_identifier` in closed form. -/
theorem parse_identifier_eq (str : List Char) (b e : Nat) :
    parse_identifier str b e =
      match range str b e with
      | [] => ⟨false, b⟩
      | c :: cs =>
        if is_id_first c then ⟨true, b + 1 + (cs.takeWhile is_id_rest).length⟩ else ⟨false, b⟩ := by
  unfold parse_identifier
  cases range str b e with
  | nil => simp [parse_identifier.loop, parse_identifier.finish]
  | cons c cs =>
    by_cases h : is_id_first c = true
    · simp [parse_identifier.loop, h, parse_identifier_loop_rest]
    · simp [parse_identifier.loop, h]

theorem parse_identifier_cases (str : List Char) (b e : Nat) :
    parse_identifier str b e = ⟨false, b⟩ ∨
      ((parse_identifier str b e).matched = true ∧ b < (parse_identifier str b e).pos ∧
        (parse_identifier str b e).pos ≤ b + (range str b e).length) := by
  rw [parse_identifier_eq]
  cases range str b e with
  | nil => left; rfl
  | cons c cs =>
    by_cases h : is_id_first c = true
    · right
      simp only [h, if_true, List.length_cons, true_and]
      have := (List.takeWhile_sublist (l := cs) is_id_rest).length_le
      omega
    · left; simp [h]

/-! ## The leaf loops on inputs of a given shape -/

theorem parse_block_comment_loop_body (body rest : List Char) (hb : '*' ∉ body) :
    ∀ (i : Nat) (m : match_result),
      parse_block_comment.loop (body ++ '*' :: '/' :: rest) 2 i m = ⟨true, i + body.length + 2⟩ := by
  induction body with
  | nil => intro i m; simp [parse_block_comment.loop]
  | cons c cs ih =>
    intro i m
    have hc : c ≠ '*' := fun h => hb (by simp [h])
    have hcs : '*' ∉ cs := fun h => hb (by simp [h])
    rw [List.cons_append]
    simp only [parse_block_comment.loop, hc, if_false, ih hcs,
      List.length_cons, match_result.mk.injEq, true_and]
    omega

theorem parse_block_comment_fail_first (str : List Char) (b e : Nat) (c : Char)
    (cs : List Char) (hr : range str b e = c :: cs) (hc : c ≠ '/') :
    parse_block_comment str b e = ⟨false, b⟩ := by
  simp [parse_block_comment, hr, parse_block_comment.loop, hc]

theorem parse_block_comment_fail_second (str : List Char) (b e : Nat) (c : Char)
    (cs : List Char) (hr : range str b e = '/' :: c :: cs) (hc : c ≠ '*') :
    parse_block_comment str b e = ⟨false, b⟩ := by
  simp [parse_block_comment, hr, parse_block_comment.loop, hc]

theorem parse_line_comment_loop_body (body : List Char) (hb : '\n' ∉ body) :
    ∀ (i : Nat),
      (∀ rest, parse_line_comment.loop (body ++ '\n' :: rest) 2 i = (2, i + body.length + 1)) ∧
        parse_line_comment.loop body 2 i = (2, i + body.length) := by
  induction body with
  | nil => intro i; simp [parse_line_comment.loop]
  | cons c cs ih =>
    intro i
    have hc : c ≠ '\n' := fun h => hb (by simp [h])
    have hcs : '\n' ∉ cs := fun h => hb (by simp [h])
    obtain ⟨h1, h2⟩ := ih hcs (i + 1)
    constructor
    · intro rest
      rw [List.cons_append]
      simp only [parse_line_comment.loop, hc, ne_eq, not_false_eq_true,
        if_true, h1, List.length_cons, Prod.mk.injEq, true_and]
      omega
    · simp only [parse_line_comment.loop, hc, ne_eq, not_false_eq_true, if_true, h2,
        List.length_cons, Prod.mk.injEq, true_and]
      omega

theorem parse_line_comment_fail_first (str : List Char) (b e : Nat) (c : Char)
    (cs : List Char) (hr : range str b e = c :: cs) (hc : c ≠ '/') :
    parse_line_comment str b e = ⟨false, b⟩ := by
  simp [parse_line_comment, hr, parse_line_comment.loop, hc]

theorem parse_line_comment_fail_second (str : List Char) (b e : Nat) (c : Char)
    (cs : List Char) (hr : range str b e = '/' :: c :: cs) (hc : c ≠ '/') :
    parse_line_comment str b e = ⟨false, b⟩ := by
  simp [parse_line_comment, hr, parse_line_comment.loop, hc]

theorem parse_string_literal_loop_body (body : List Char) (hq : '\"' ∉ body) :
    ∀ (i : Nat) (m : match_result),
      (∀ rest, '\\' ∉ body →
        parse_string_literal.loop (body ++ '\"' :: rest) literal.NORMAL i m
          = ⟨true, i + body.length + 1⟩) ∧
      (∀ rest, parse_string_literal.loop (body ++ '\\' :: rest) literal.NORMAL i m = m) := by
  induction body with
  | nil =>
    intro i m
    constructor
    · intro rest _
      simp [parse_string_literal.loop, parse_string_literal_loop_stop]
    · intro rest
      simp [parse_string_literal.loop]
  | cons c cs ih =>
    intro i m
    have hc : c ≠ '\"' := fun h => hq (by simp [h])
    have hcs : '\"' ∉ cs := fun h => hq (by simp [h])
    obtain ⟨h1, h2⟩ := ih hcs (i + 1) m
    have e1 : literal.NORMAL ≠ literal.BEGIN := by decide
    constructor
    · intro rest hbs
      have hc2 : c ≠ '\\' := fun h => hbs (by simp [h])
      have hcs2 : '\\' ∉ cs := fun h => hbs (by simp [h])
      rw [List.cons_append, parse_string_literal.loop]
      simp only [e1, hc, hc2, if_false, if_true, h1 rest hcs2, List.length_cons,
        match_result.mk.injEq, true_and]
      omega
    · intro rest
      rw [List.cons_append, parse_string_literal.loop]
      by_cases hc2 : c = '\\'
      · simp only [e1, hc2, if_false, if_true]
      · simp only [e1, hc, hc2, if_false, if_true, h2 rest]

theorem parse_string_literal_fail_first (str : List Char) (b e : Nat)
    (hr : (range str b e).head? ≠ some '\"') :
    (parse_string_literal str b e).matched = false := by
  unfold parse_string_literal
  cases h : range str b e with
  | nil => simp [parse_string_literal.loop]
  | cons c cs =>
    have hc : c ≠ '\"' := by rw [h] at hr; simpa using hr
    simp only [parse_string_literal.loop, hc, if_true, if_false]
    rw [parse_string_literal_loop_stop _ _ _ _ (by decide) (by decide) (by decide)]

theorem parse_char_literal_loop_body (body : List Char) (hq : '\'' ∉ body) :
    ∀ (i : Nat) (m : match_result),
      (∀ rest, '\\' ∉ body →
        parse_char_literal.loop (body ++ '\'' :: rest) literal.NORMAL i m
          = ⟨true, i + body.length + 1⟩) ∧
      (∀ rest, parse_char_literal.loop (body ++ '\\' :: rest) literal.NORMAL i m = m) := by
  induction body with
  | nil =>
    intro i m
    constructor
    · intro rest _
      simp [parse_char_literal.loop, parse_char_literal_loop_stop]
    · intro rest
      simp [parse_char_literal.loop]
  | cons c cs ih =>
    intro i m
    have hc : c ≠ '\'' := fun h => hq (by simp [h])
    have hcs : '\'' ∉ cs := fun h => hq (by simp [h])
    obtain ⟨h1, h2⟩ := ih hcs (i + 1) m
    have e1 : literal.NORMAL ≠ literal.BEGIN := by decide
    constructor
    · intro rest hbs
      have hc2 : c ≠ '\\' := fun h => hbs (by simp [h])
      have hcs2 : '\\' ∉ cs := fun h => hbs (by simp [h])
      rw [List.cons_append, parse_char_literal.loop]
      simp only [e1, hc, hc2, if_false, if_true, h1 rest hcs2, List.length_cons,
        match_result.mk.injEq, true_and]
      omega
    · intro rest
      rw [List.cons_append, parse_char_literal.loop]
      by_cases hc2 : c = '\\'
      · simp only [e1, hc2, if_false, if_true]
      · simp only [e1, hc, hc2, if_false, if_true, h2 rest]

theorem parse_char_literal_fail_first (str : List Char) (b e : Nat)
    (hr : (range str b e).head? ≠ some '\'') :
    (parse_char_literal str b e).matched = false := by
  unfold parse_char_literal
  cases h : range str b e with
  | nil => simp [parse_char_literal.loop]
  | cons c cs =>
    have hc : c ≠ '\'' := by rw [h] at hr; simpa using hr
    simp only [parse_char_literal.loop, hc, if_true, if_false]
    rw [parse_char_literal_loop_stop _ _ _ _ (by decide) (by decide) (by decide)]

/-! ## The alternation of `main` -/

/-- The seven-way alternation of `main`, operand by operand. -/
theorem main_po_eq (str : List Char) (b e : Nat) (st : stdout) :
    main.po str b e st =
      if (parse_block_comment str b e).matched then (parse_block_comment str b e, st)
      else if (parse_line_comment str b e).matched then (parse_line_comment str b e, st)
      else if (parse_string_literal str b e).matched then (parse_string_literal str b e, st)
      else if (parse_char_literal str b e).matched then (parse_char_literal str b e, st)
      else if (parse_identifier str b e).matched then
        (parse_identifier str b e, st ++ [range str b (parse_identifier str b e).pos])
      else if (parse_a_char str b e).matched then (parse_a_char str b e, st)
      else (parse_epsilon str b e, st) := by
  simp only [main.po, main.ps, or_pattern, or_pattern.loop, fn_pattern, fn_pattern_void,
    print_line]
  split_ifs <;> rfl

theorem main_po_shift (pre s : List Char) (b e : Nat) (st : stdout) :
    main.po (pre ++ s) (pre.length + b) (pre.length + e) st
      = ((main.po s b e st).1.shift pre.length, (main.po s b e st).2) := by
  simp only [main_po_eq, parse_block_comment_shift, parse_line_comment_shift,
    parse_string_literal_shift, parse_char_literal_shift, parse_identifier_shift,
    parse_a_char_shift, match_result.shift_matched, match_result.shift_pos, range_append_left]
  split_ifs <;> rfl

/-- The alternation of `main` only appends to standard output. -/
theorem main_po_state (str : List Char) (b e : Nat) (st : stdout) :
    main.po str b e st = ((main.po str b e []).1, st ++ (main.po str b e []).2) := by
  simp only [main_po_eq]
  split_ifs <;> simp

/-- Before the end of the input the alternation matches, and consumes at least
one character and none beyond `e`. -/
theorem main_po_progress (str : List Char) (b e : Nat) (st : stdout) (h : b < e) :
    (main.po str b e st).1.matched = true ∧ b < (main.po str b e st).1.pos ∧
      (main.po str b e st).1.pos ≤ e := by
  have hr := range_length_le str b e
  rw [main_po_eq]
  split_ifs with h1 h2 h3 h4 h5 h6 <;> dsimp only
  · rcases parse_block_comment_cases str b e with h0 | ⟨_, h7, h8⟩
    · simp [h0] at h1
    · exact ⟨h1, h7, by omega⟩
  · rcases parse_line_comment_cases str b e with h0 | ⟨_, h7, h8⟩
    · simp [h0] at h2
    · exact ⟨h2, h7, by omega⟩
  · have := parse_string_literal_bounds str b e h3
    exact ⟨h3, this.1, by omega⟩
  · have := parse_char_literal_bounds str b e h4
    exact ⟨h4, this.1, by omega⟩
  · rcases parse_identifier_cases str b e with h0 | ⟨_, h7, h8⟩
    · simp [h0] at h5
    · exact ⟨h5, h7, by omega⟩
  · have hne : b ≠ e := by omega
    simp only [parse_a_char, hne, ne_eq, not_false_eq_true, if_true]
    exact ⟨trivial, by omega, by omega⟩
  · have hne : b ≠ e := by omega
    simp [parse_a_char, hne] at h6

/-- The match result of the alternation does not depend on standard output. -/
theorem main_po_result (str : List Char) (b e : Nat) (st st2 : stdout) :
    (main.po str b e st).1 = (main.po str b e st2).1 := by
  rw [main_po_state str b e st, main_po_state str b e st2]

/-! ## The repetition loop -/

/-- More fuel does not change a result. -/
theorem n_pattern_loop_mono {σ : Type} (p : pattern_interface σ) (str : List Char) (e : Nat) :
    ∀ (fuel fuel2 : Nat) (m : match_result) (st : σ) (r : match_result × σ),
      fuel ≤ fuel2 → n_pattern.loop p str e fuel m st = some r →
        n_pattern.loop p str e fuel2 m st = some r := by
  intro fuel
  induction fuel with
  | zero => intro fuel2 m st r _ h; simp [n_pattern.loop] at h
  | succ n ih =>
    intro fuel2 m st r hle h
    obtain ⟨k, rfl⟩ : ∃ k, fuel2 = k + 1 := ⟨fuel2 - 1, by omega⟩
    simp only [n_pattern.loop] at h ⊢
    split_ifs at h ⊢ with h1 h2
    · exact h
    · exact ih k _ _ r (by omega) h
    · exact h

/-- The value of the uninitialised flag reaches neither the final position nor
the output. -/
theorem n_pattern_loop_uninit {σ : Type} (p : pattern_interface σ) (str : List Char)
    (e fuel b : Nat) (u1 u2 : Bool) (st : σ) :
    (n_pattern.loop p str e fuel ⟨u1, b⟩ st).map (fun r => (r.1.pos, r.2))
      = (n_pattern.loop p str e fuel ⟨u2, b⟩ st).map (fun r => (r.1.pos, r.2)) := by
  cases fuel with
  | zero => rfl
  | succ n =>
    simp only [n_pattern.loop]
    split_ifs <;> rfl

theorem main_loop_state (str : List Char) (e : Nat) :
    ∀ (fuel : Nat) (m : match_result) (st : stdout),
      n_pattern.loop main.po str e fuel m st
        = (n_pattern.loop main.po str e fuel m []).map (fun r => (r.1, st ++ r.2)) := by
  intro fuel
  induction fuel with
  | zero => intro m st; rfl
  | succ n ih =>
    intro m st
    simp only [n_pattern.loop]
    rw [main_po_state str m.pos e st]
    split_ifs with h1 h2
    · simp
    · rw [ih _ (st ++ _), ih _ (main.po str m.pos e []).2]
      simp [Option.map_map, Function.comp_def]
    · simp

theorem main_loop_shift (pre s : List Char) (e : Nat) :
    ∀ (fuel : Nat) (m : match_result) (st : stdout),
      n_pattern.loop main.po (pre ++ s) (pre.length + e) fuel (m.shift pre.length) st
        = (n_pattern.loop main.po s e fuel m st).map (fun r => (r.1.shift pre.length, r.2)) := by
  intro fuel
  induction fuel with
  | zero => intro m st; rfl
  | succ n ih =>
    intro m st
    simp only [n_pattern.loop, match_result.shift_pos, main_po_shift,
      match_result.shift_matched, ne_eq, Nat.add_left_cancel_iff]
    split_ifs with h1 h2
    · simp
    · simp
    · rw [ih]

/-- The loop of `main` started at `b` ends at `e = str.length`, through a chain of
non-empty adjacent spans. -/
theorem main_loop_total (str : List Char) :
    ∀ (n b : Nat) (mt : Bool) (st : stdout), b ≤ str.length → str.length - b ≤ n →
      ∃ (cuts : List Nat) (mt2 : Bool) (out : stdout),
        n_pattern.loop main.po str str.length (n + 1) ⟨mt, b⟩ st = some (⟨mt2, str.length⟩, out) ∧
        cuts.head? = some b ∧ cuts.getLast? = some str.length ∧
        List.Chain' (main.span str) cuts := by
  intro n
  induction n with
  | zero =>
    intro b mt st hb hn
    have hbe : b = str.length := by omega
    refine ⟨[b], mt, st, ?_, rfl, by simp [hbe], List.chain'_singleton b⟩
    simp [n_pattern.loop, hbe]
  | succ n ih =>
    intro b mt st hb hn
    by_cases hbe : b = str.length
    · refine ⟨[b], mt, st, ?_, rfl, by simp [hbe], List.chain'_singleton b⟩
      simp [n_pattern.loop, hbe]
    · have hlt : b < str.length := by omega
      obtain ⟨hm, hp1, hp2⟩ := main_po_progress str b str.length st hlt
      obtain ⟨cuts, mt2, out, hrun, hhead, hlast, hchain⟩ :=
        ih (main.po str b str.length st).1.pos (main.po str b str.length st).1.matched
          (main.po str b str.length st).2 hp2 (by omega)
      refine ⟨b :: cuts, mt2, out, ?_, rfl, ?_, ?_⟩
      · rw [n_pattern.loop]
        simp only [ne_eq, hbe, not_false_eq_true, if_true, hm, Bool.not_true,
          Bool.false_eq_true, if_false]
        exact hrun
      · cases cuts with
        | nil => simp at hhead
        | cons q qs => simpa using hlast
      · rw [List.chain'_cons']
        refine ⟨?_, hchain⟩
        intro q hq
        rw [hhead] at hq
        cases hq
        refine ⟨hp1, fun st2 => ?_⟩
        rw [main_po_result str b str.length st2 st]
        cases hr : (main.po str b str.length st).1 with
        | mk mm pp => rw [hr] at hm; simp at hm; simp [hm]

/-- Every buffer has an output. -/
theorem main_writes_total (str : List Char) : ∃ out, main.writes str out := by
  obtain ⟨_, mt2, out, hrun, _, _, _⟩ :=
    main_loop_total str str.length 0 true [] (Nat.zero_le _) (by omega)
  refine ⟨out, fun uninit fuel hf => ?_⟩
  have h1 := n_pattern_loop_mono main.po str str.length (str.length + 1) fuel ⟨true, 0⟩ []
    _ (by omega) hrun
  have h2 := n_pattern_loop_uninit main.po str str.length fuel 0 uninit true []
  rw [h1] at h2
  unfold main main.scan n_pattern
  cases hr : n_pattern.loop main.po str str.length fuel ⟨uninit, 0⟩ [] with
  | none => rw [hr] at h2; simp at h2
  | some r => rw [hr] at h2; simp at h2; simp [h2.2]

/-- A buffer has one output only. -/
theorem main_writes_unique (str : List Char) (out out2 : stdout)
    (h : main.writes str out) (h2 : main.writes str out2) : out = out2 := by
  have a := h true (str.length + 1) (by omega)
  have b := h2 true (str.length + 1) (by omega)
  rw [a] at b
  exact Option.some.inj b

/-- When the first application of the alternation consumes exactly `pre` and
writes `ts`, the scan goes on as a scan of what follows `pre`. -/
theorem main_writes_skip (pre rest : List Char) (ts out : stdout) (hpre : pre ≠ [])
    (hstep : main.po (pre ++ rest) 0 (pre ++ rest).length [] = (⟨true, pre.length⟩, ts))
    (hrest : main.writes rest out) : main.writes (pre ++ rest) (ts ++ out) := by
  intro uninit fuel hf
  have hlen : 0 < pre.length := List.length_pos.mpr hpre
  obtain ⟨f, rfl⟩ : ∃ f, fuel = f + 1 := ⟨fuel - 1, by omega⟩
  have hr := hrest true f (by simp only [List.length_append] at hf; omega)
  unfold main main.scan n_pattern at hr ⊢
  have hne : (0 : Nat) ≠ (pre ++ rest).length := by simp only [List.length_append]; omega
  rw [n_pattern.loop]
  simp only [hne, ne_eq, not_false_eq_true, if_true, hstep, Bool.not_true, Bool.false_eq_true,
    if_false]
  rw [main_loop_state]
  have hs := main_loop_shift pre rest rest.length f ⟨true, 0⟩ []
  simp only [match_result.shift, Nat.add_zero, ← List.length_append] at hs
  rw [hs]
  cases hl : n_pattern.loop main.po rest rest.length f ⟨true, 0⟩ [] with
  | none => rw [hl] at hr; simp at hr
  | some r => rw [hl] at hr; simp at hr; simp [hr]

/-- One run that returns fixes the output. -/
theorem main_writes_of_run (str : List Char) (out : stdout) (uninit : Bool) (fuel : Nat)
    (h : main uninit fuel str = some out) : main.writes str out := by
  obtain ⟨out2, h2⟩ := main_writes_total str
  have h3 := h2 uninit (max fuel (str.length + 1)) (by omega)
  unfold main main.scan n_pattern at h h3
  cases hr : n_pattern.loop main.po str str.length fuel ⟨uninit, 0⟩ [] with
  | none => rw [hr] at h; simp at h
  | some r =>
    have h4 := n_pattern_loop_mono main.po str str.length fuel (max fuel (str.length + 1))
      ⟨uninit, 0⟩ [] r (by omega) hr
    rw [hr] at h
    rw [h4] at h3
    simp only [Option.map_some', Option.some.injEq] at h h3
    rw [← h, h3]
    exact h2

/-! ## The leaf recognizers -/

/-- A terminated block comment without a star in its body is matched up to the
end of its closing mark. -/
theorem parse_block_comment_star_free (str : List Char) (b e : Nat) (body rest : List Char)
    (hr : range str b e = '/' :: '*' :: (body ++ '*' :: '/' :: rest)) (hb : '*' ∉ body) :
    parse_block_comment str b e = ⟨true, b + body.length + 4⟩ := by
  unfold parse_block_comment
  rw [hr]
  simp only [parse_block_comment.loop, if_true]
  rw [parse_block_comment_loop_body body rest hb]
  simp only [match_result.mk.injEq, true_and]
  omega

/-- C7 (the code at failing inputs): `parse_block_comment` does not match the
terminated comment made of a slash, three stars and a slash, nor the terminated
comment whose body is ` a*b `: a star of the body that is not followed by a slash
ends the loop, with `matched = false` and `pos = begin`. -/
theorem C7_block_comment_fails_on_star_in_body :
    parse_block_comment "/***/".toList 0 5 = ⟨false, 0⟩ ∧
    parse_block_comment "/* a*b */".toList 0 9 = ⟨false, 0⟩ := by
  constructor <;> decide

theorem parse_line_comment_newline (str : List Char) (b e : Nat) (body rest : List Char)
    (hr : range str b e = '/' :: '/' :: (body ++ '\n' :: rest)) (hb : '\n' ∉ body) :
    parse_line_comment str b e = ⟨true, b + 2 + body.length + 1⟩ := by
  unfold parse_line_comment
  rw [hr]
  simp only [parse_line_comment.loop, if_true]
  rw [(parse_line_comment_loop_body body hb (b + 1 + 1)).1 rest]
  simp

theorem parse_line_comment_open (str : List Char) (b e : Nat) (body : List Char)
    (hr : range str b e = '/' :: '/' :: body) (hb : '\n' ∉ body) :
    parse_line_comment str b e = ⟨true, b + 2 + body.length⟩ := by
  unfold parse_line_comment
  rw [hr]
  simp only [parse_line_comment.loop, if_true]
  rw [(parse_line_comment_loop_body body hb (b + 1 + 1)).2]
  simp

theorem parse_line_comment_no_slashes (str : List Char) (b e : Nat)
    (h : ¬ (['/', '/'] <+: range str b e)) : parse_line_comment str b e = ⟨false, b⟩ := by
  unfold parse_line_comment
  rcases hr : range str b e with _ | ⟨c, _ | ⟨c2, cs⟩⟩
  · simp [parse_line_comment.loop]
  · by_cases hc : c = '/' <;> simp [parse_line_comment.loop, hc]
  · by_cases hc : c = '/'
    · by_cases hc2 : c2 = '/'
      · rw [hr, hc, hc2] at h
        exact absurd (List.prefix_append ['/', '/'] cs) h
      · simp [parse_line_comment.loop, hc, hc2]
    · simp [parse_line_comment.loop, hc]

/-- C8: on an input `[b, e)` that begins with two slashes `parse_line_comment`
matches, up to just past the first newline after them, or up to `e` when there is
no newline; on an input that does not begin with two slashes (the empty input and
the single slash among them) it returns `matched = false` with `pos = b`. -/
theorem C8_parse_line_comment (str : List Char) (b e : Nat) :
    (∀ body rest : List Char, range str b e = '/' :: '/' :: (body ++ '\n' :: rest) →
        '\n' ∉ body → parse_line_comment str b e = ⟨true, b + 2 + body.length + 1⟩) ∧
    (∀ body : List Char, range str b e = '/' :: '/' :: body → '\n' ∉ body →
        b ≤ e → e ≤ str.length → parse_line_comment str b e = ⟨true, e⟩) ∧
    (¬ (['/', '/'] <+: range str b e) → parse_line_comment str b e = ⟨false, b⟩) := by
  refine ⟨parse_line_comment_newline str b e, ?_, parse_line_comment_no_slashes str b e⟩
  intro body hr hb hbe he
  have hl := range_length str b e he
  rw [hr] at hl
  simp only [List.length_cons] at hl
  rw [parse_line_comment_open str b e body hr hb]
  simp only [match_result.mk.injEq, true_and]
  omega

/-- C8 at concrete inputs: a comment closed by a newline, a comment closed by the
end of the input, and the single slash. -/
theorem C8_parse_line_comment_witness :
    parse_line_comment "// foo\nint bar;".toList 0 15 = ⟨true, 7⟩ ∧
    parse_line_comment "// foo".toList 0 6 = ⟨true, 6⟩ ∧
    parse_line_comment "/".toList 0 1 = ⟨false, 0⟩ :=
  ⟨(C8_parse_line_comment "// foo\nint bar;".toList 0 15).1 " foo".toList "int bar;".toList
      (by decide) (by decide),
    (C8_parse_line_comment "// foo".toList 0 6).2.1 " foo".toList
      (by decide) (by decide) (by decide) (by decide),
    (C8_parse_line_comment "/".toList 0 1).2.2 (by decide)⟩

theorem parse_string_literal_closed (str : List Char) (b e : Nat) (body rest : List Char)
    (hr : range str b e = '\"' :: (body ++ '\"' :: rest)) (hq : '\"' ∉ body)
    (hbs : '\\' ∉ body) : parse_string_literal str b e = ⟨true, b + body.length + 2⟩ := by
  unfold parse_string_literal
  rw [hr, parse_string_literal.loop]
  simp only [if_true]
  rw [(parse_string_literal_loop_body body hq (b + 1) ⟨false, b⟩).1 rest hbs]
  simp only [match_result.mk.injEq, true_and]
  omega

theorem parse_string_literal_backslash (str : List Char) (b e : Nat) (body rest : List Char)
    (hr : range str b e = '\"' :: (body ++ '\\' :: rest)) (hq : '\"' ∉ body) :
    parse_string_literal str b e = ⟨false, b⟩ := by
  unfold parse_string_literal
  rw [hr, parse_string_literal.loop]
  simp only [if_true]
  rw [(parse_string_literal_loop_body body hq (b + 1) ⟨false, b⟩).2 rest]

theorem parse_char_literal_closed (str : List Char) (b e : Nat) (body rest : List Char)
    (hr : range str b e = '\'' :: (body ++ '\'' :: rest)) (hq : '\'' ∉ body)
    (hbs : '\\' ∉ body) : parse_char_literal str b e = ⟨true, b + body.length + 2⟩ := by
  unfold parse_char_literal
  rw [hr, parse_char_literal.loop]
  simp only [if_true]
  rw [(parse_char_literal_loop_body body hq (b + 1) ⟨false, b⟩).1 rest hbs]
  simp only [match_result.mk.injEq, true_and]
  omega

/-- C9: on an input `[b, e)` made of a double quote, a body with neither a double
quote nor a backslash, and a double quote, whatever follows, `parse_string_literal`
matches up to just past the closing quote; when a backslash comes before any
closing quote it returns `matched = false` with `pos = b`; on an input that does
not start with a double quote it returns `matched = false`. -/
theorem C9_parse_string_literal (str : List Char) (b e : Nat) :
    (∀ body rest : List Char, range str b e = '\"' :: (body ++ '\"' :: rest) →
        '\"' ∉ body → '\\' ∉ body →
        parse_string_literal str b e = ⟨true, b + body.length + 2⟩) ∧
    (∀ body rest : List Char, range str b e = '\"' :: (body ++ '\\' :: rest) →
        '\"' ∉ body → parse_string_literal str b e = ⟨false, b⟩) ∧
    ((range str b e).head? ≠ some '\"' → (parse_string_literal str b e).matched = false) :=
  ⟨parse_string_literal_closed str b e, parse_string_literal_backslash str b e,
    parse_string_literal_fail_first str b e⟩

/-- C9 at concrete inputs: a closed literal, a literal with a backslash, and an
input that starts with a letter. -/
theorem C9_parse_string_literal_witness :
    parse_string_literal "\"hello world\" baz".toList 0 17 = ⟨true, 13⟩ ∧
    parse_string_literal "\"a\\\"b\" x".toList 0 8 = ⟨false, 0⟩ ∧
    (parse_string_literal "x\"".toList 0 2).matched = false :=
  ⟨(C9_parse_string_literal "\"hello world\" baz".toList 0 17).1 "hello world".toList
      " baz".toList (by decide) (by decide) (by decide),
    (C9_parse_string_literal "\"a\\\"b\" x".toList 0 8).2.1 "a".toList "\"b\" x".toList
      (by decide) (by decide),
    (C9_parse_string_literal "x\"".toList 0 2).2.2 (by decide)⟩

theorem swap_quotes_eq_dquote (c : Char) : swap_quotes c = '\"' ↔ c = '\'' := by
  unfold swap_quotes
  split_ifs with h1 h2
  · simp [h1]
  · simp [h2]
  · simp [h1, h2]

theorem swap_quotes_eq_backslash (c : Char) : swap_quotes c = '\\' ↔ c = '\\' := by
  unfold swap_quotes
  split_ifs with h1 h2
  · simp [h1]
  · simp [h2]
  · simp

theorem parse_char_literal_loop_swap (l : List Char) :
    ∀ (state : Int) (i : Nat) (m : match_result),
      parse_char_literal.loop l state i m
        = parse_string_literal.loop (l.map swap_quotes) state i m := by
  induction l with
  | nil => intro state i m; rfl
  | cons c cs ih =>
    intro state i m
    simp only [List.map_cons, parse_char_literal.loop, parse_string_literal.loop,
      swap_quotes_eq_dquote, swap_quotes_eq_backslash, ih]

/-- C10: `parse_char_literal` is `parse_string_literal` with the quote character
exchanged: on every buffer and range it returns the result (the same `matched`,
the same `pos`) that `parse_string_literal` returns on the buffer in which every
single quote has become a double quote and every double quote a single quote. -/
theorem C10_char_literal_is_string_literal_swapped (str : List Char) (b e : Nat) :
    parse_char_literal str b e = parse_string_literal (str.map swap_quotes) b e := by
  unfold parse_char_literal parse_string_literal
  rw [parse_char_literal_loop_swap]
  simp [range, List.map_take, List.map_drop]

/-! ## Single steps of the scan -/

theorem is_id_first_eq (c : Char) : is_id_first c = (c.isAlpha || c == '_') := by
  have h1 : (decide (c ≥ 'a') && decide (c ≤ 'z')) = c.isLower := rfl
  have h2 : (decide (c ≥ 'A') && decide (c ≤ 'Z')) = c.isUpper := rfl
  have h4 : decide (c = '_') = (c == '_') := rfl
  unfold is_id_first Char.isAlpha
  rw [h1, h2, h4]
  cases c.isLower <;> cases c.isUpper <;> rfl

theorem is_id_rest_eq (c : Char) : is_id_rest c = (c.isAlphanum || c == '_') := by
  have h1 : (decide (c ≥ 'a') && decide (c ≤ 'z')) = c.isLower := rfl
  have h2 : (decide (c ≥ 'A') && decide (c ≤ 'Z')) = c.isUpper := rfl
  have h3 : (decide (c ≥ '0') && decide (c ≤ '9')) = c.isDigit := rfl
  have h4 : decide (c = '_') = (c == '_') := rfl
  unfold is_id_rest Char.isAlphanum Char.isAlpha
  rw [h1, h2, h3, h4]
  cases c.isLower <;> cases c.isUpper <;> cases c.isDigit <;> rfl

theorem is_id_first_ne (c d : Char) (hc : is_id_first c = true) (hd : is_id_first d = false) :
    c ≠ d := by
  rintro rfl
  rw [hc] at hd
  exact absurd hd (by decide)

/-- The wildcard step: where no other recognizer matches, the alternation
consumes one character and writes nothing. -/
theorem main_po_wildcard (c : Char) (cs : List Char)
    (hblock : (parse_block_comment (c :: cs) 0 (c :: cs).length).matched = false)
    (hline : (parse_line_comment (c :: cs) 0 (c :: cs).length).matched = false)
    (hdq : c ≠ '\"') (hsq : c ≠ '\'') (hid : is_id_first c = false) :
    main.po ([c] ++ cs) 0 ([c] ++ cs).length [] = (⟨true, [c].length⟩, []) := by
  have hr : range (c :: cs) 0 (c :: cs).length = c :: cs := range_all _
  have hs := parse_string_literal_fail_first (c :: cs) 0 (c :: cs).length
    (by rw [hr]; simpa using hdq)
  have hc := parse_char_literal_fail_first (c :: cs) 0 (c :: cs).length
    (by rw [hr]; simpa using hsq)
  have hi : (parse_identifier (c :: cs) 0 (c :: cs).length).matched = false := by
    rw [parse_identifier_eq, hr]; simp [hid]
  rw [main_po_eq]
  simp only [List.singleton_append, hblock, hline, hs, hc, hi, Bool.false_eq_true, if_false]
  simp [parse_a_char]

theorem main_writes_wildcard (c : Char) (cs : List Char) (out : stdout)
    (hblock : (parse_block_comment (c :: cs) 0 (c :: cs).length).matched = false)
    (hline : (parse_line_comment (c :: cs) 0 (c :: cs).length).matched = false)
    (hdq : c ≠ '\"') (hsq : c ≠ '\'') (hid : is_id_first c = false)
    (hcs : main.writes cs out) : main.writes (c :: cs) out := by
  have h := main_writes_skip [c] cs [] out (by simp)
    (main_po_wildcard c cs hblock hline hdq hsq hid) hcs
  simpa using h

/-- The identifier step: on an identifier that ends where the input ends or where
a character that cannot continue it stands, the alternation consumes the
identifier and writes it. -/
theorem main_po_identifier (c : Char) (cs rest : List Char) (hc : is_id_first c = true)
    (hcs : ∀ d ∈ cs, is_id_rest d = true) (hrest : ∀ d ∈ rest.head?, is_id_rest d = false) :
    main.po ((c :: cs) ++ rest) 0 ((c :: cs) ++ rest).length []
      = (⟨true, (c :: cs).length⟩, [c :: cs]) := by
  have hr : range ((c :: cs) ++ rest) 0 ((c :: cs) ++ rest).length = c :: (cs ++ rest) :=
    range_all _
  have hb := parse_block_comment_fail_first _ 0 _ c _ hr
    (is_id_first_ne c '/' hc (by decide))
  have hl := parse_line_comment_fail_first _ 0 _ c _ hr
    (is_id_first_ne c '/' hc (by decide))
  have hs := parse_string_literal_fail_first ((c :: cs) ++ rest) 0 ((c :: cs) ++ rest).length
    (by rw [hr]; simpa using is_id_first_ne c '\"' hc (by decide))
  have hq := parse_char_literal_fail_first ((c :: cs) ++ rest) 0 ((c :: cs) ++ rest).length
    (by rw [hr]; simpa using is_id_first_ne c '\'' hc (by decide))
  have htw : (cs ++ rest).takeWhile is_id_rest = cs := by
    rw [List.takeWhile_append_of_pos hcs]
    cases rest with
    | nil => simp
    | cons d ds =>
      have := hrest d (by simp)
      simp [List.takeWhile_cons, this]
  have hi : parse_identifier ((c :: cs) ++ rest) 0 ((c :: cs) ++ rest).length
      = ⟨true, (c :: cs).length⟩ := by
    rw [parse_identifier_eq, hr]
    simp only [hc, if_true, htw, List.length_cons, match_result.mk.injEq, true_and]
    omega
  rw [main_po_eq]
  simp only [hb, hl, hs, hq, hi, Bool.false_eq_true, if_false, if_true, List.nil_append]
  simp [range]

/-! ## The scan as a whole -/

/-- C1: for every finite input the driver scan terminates (every run with more
fuel than the input has characters returns, always with the same result), the
position it returns is the input length, and the spans consumed by the successive
applications of the alternation tile the input: they start at 0, each is not
empty and starts where the one before ended, and the last ends at the length. -/
theorem C1_scan_terminates_and_tiles (str : List Char) (uninit : Bool) :
    ∃ (cuts : List Nat) (m : match_result) (out : stdout),
      (∀ fuel, str.length < fuel → main.scan uninit fuel str = some (m, out)) ∧
      m.pos = str.length ∧
      cuts.head? = some 0 ∧ cuts.getLast? = some str.length ∧
      List.Chain' (main.span str) cuts := by
  obtain ⟨cuts, mt2, out, hrun, hhead, hlast, hchain⟩ :=
    main_loop_total str str.length 0 uninit [] (Nat.zero_le _) (by omega)
  refine ⟨cuts, ⟨mt2, str.length⟩, out, fun fuel hf => ?_, rfl, hhead, hlast, hchain⟩
  exact n_pattern_loop_mono main.po str str.length (str.length + 1) fuel ⟨uninit, 0⟩ []
    _ (by omega) hrun

/-- The empty buffer: nothing is written. -/
theorem main_writes_nil : main.writes [] [] :=
  main_writes_of_run [] [] true 1 rfl

/-- A step that matches a non-empty `pre` and writes nothing: the output is that
of the scan of what follows. -/
theorem main_writes_silent (pre rest : List Char) (hpre : pre ≠ [])
    (hstep : main.po (pre ++ rest) 0 (pre ++ rest).length [] = (⟨true, pre.length⟩, [])) :
    ∃ out, main.writes (pre ++ rest) out ∧ main.writes rest out := by
  obtain ⟨out, hout⟩ := main_writes_total rest
  exact ⟨out, by simpa using main_writes_skip pre rest [] out hpre hstep hout, hout⟩

theorem main_po_line_comment_newline (body rest : List Char) (hb : '\n' ∉ body) :
    main.po (('/' :: '/' :: (body ++ ['\n'])) ++ rest) 0
        (('/' :: '/' :: (body ++ ['\n'])) ++ rest).length []
      = (⟨true, ('/' :: '/' :: (body ++ ['\n'])).length⟩, []) := by
  have hr : range (('/' :: '/' :: (body ++ ['\n'])) ++ rest) 0
      (('/' :: '/' :: (body ++ ['\n'])) ++ rest).length = '/' :: '/' :: (body ++ '\n' :: rest) := by
    rw [range_all]; simp
  rw [main_po_eq, parse_block_comment_fail_second _ 0 _ '/' _ hr (by decide),
    parse_line_comment_newline _ 0 _ body rest hr hb]
  simp only [Bool.false_eq_true, if_false, if_true, List.length_cons, List.length_append,
    List.length_nil, Prod.mk.injEq, match_result.mk.injEq, true_and, and_true]
  omega

theorem main_po_line_comment_open (body : List Char) (hb : '\n' ∉ body) :
    main.po (('/' :: '/' :: body) ++ []) 0 (('/' :: '/' :: body) ++ []).length []
      = (⟨true, ('/' :: '/' :: body).length⟩, []) := by
  have hr : range (('/' :: '/' :: body) ++ []) 0 (('/' :: '/' :: body) ++ []).length
      = '/' :: '/' :: body := by
    rw [range_all]; simp
  rw [main_po_eq, parse_block_comment_fail_second _ 0 _ '/' _ hr (by decide),
    parse_line_comment_open _ 0 _ body hr hb]
  simp only [Bool.false_eq_true, if_false, if_true, List.length_cons, Prod.mk.injEq,
    match_result.mk.injEq, true_and, and_true]
  omega

theorem main_po_string_literal (body rest : List Char) (hq : '\"' ∉ body) (hbs : '\\' ∉ body) :
    main.po (('\"' :: (body ++ ['\"'])) ++ rest) 0 (('\"' :: (body ++ ['\"'])) ++ rest).length []
      = (⟨true, ('\"' :: (body ++ ['\"'])).length⟩, []) := by
  have hr : range (('\"' :: (body ++ ['\"'])) ++ rest) 0
      (('\"' :: (body ++ ['\"'])) ++ rest).length = '\"' :: (body ++ '\"' :: rest) := by
    rw [range_all]; simp
  rw [main_po_eq, parse_block_comment_fail_first _ 0 _ '\"' _ hr (by decide),
    parse_line_comment_fail_first _ 0 _ '\"' _ hr (by decide),
    parse_string_literal_closed _ 0 _ body rest hr hq hbs]
  simp only [Bool.false_eq_true, if_false, if_true, List.length_cons, List.length_append,
    List.length_nil, Prod.mk.injEq, match_result.mk.injEq, true_and, and_true]
  omega

theorem main_po_char_literal (body rest : List Char) (hq : '\'' ∉ body) (hbs : '\\' ∉ body) :
    main.po (('\'' :: (body ++ ['\''])) ++ rest) 0 (('\'' :: (body ++ ['\''])) ++ rest).length []
      = (⟨true, ('\'' :: (body ++ ['\''])).length⟩, []) := by
  have hr : range (('\'' :: (body ++ ['\''])) ++ rest) 0
      (('\'' :: (body ++ ['\''])) ++ rest).length = '\'' :: (body ++ '\'' :: rest) := by
    rw [range_all]; simp
  have hs := parse_string_literal_fail_first (('\'' :: (body ++ ['\''])) ++ rest) 0
    (('\'' :: (body ++ ['\''])) ++ rest).length (by rw [hr]; simp)
  rw [main_po_eq, parse_block_comment_fail_first _ 0 _ '\'' _ hr (by decide),
    parse_line_comment_fail_first _ 0 _ '\'' _ hr (by decide), hs,
    parse_char_literal_closed _ 0 _ body rest hr hq hbs]
  simp only [Bool.false_eq_true, if_false, if_true, List.length_cons, List.length_append,
    List.length_nil, Prod.mk.injEq, match_result.mk.injEq, true_and, and_true]
  omega

/-- C2: a line comment and a string or character literal are skipped by the
driver scan: the scan of two slashes, a body without a newline, a newline and
`rest` writes what the scan of `rest` writes; the scan of two slashes and a body
without a newline writes nothing; and for `q` the double or the single quote, the
scan of `q`, a body with neither `q` nor a backslash, `q` and `rest` writes what
the scan of `rest` writes. -/
theorem C2_line_comment_and_literals_suppressed :
    (∀ body rest : List Char, '\n' ∉ body →
      ∃ out, main.writes ('/' :: '/' :: (body ++ '\n' :: rest)) out ∧ main.writes rest out) ∧
    (∀ body : List Char, '\n' ∉ body → main.writes ('/' :: '/' :: body) []) ∧
    (∀ (q : Char) (body rest : List Char), q = '\"' ∨ q = '\'' → q ∉ body → '\\' ∉ body →
      ∃ out, main.writes (q :: (body ++ q :: rest)) out ∧ main.writes rest out) := by
  refine ⟨?_, ?_, ?_⟩
  · intro body rest hb
    have h := main_writes_silent ('/' :: '/' :: (body ++ ['\n'])) rest (by simp)
      (main_po_line_comment_newline body rest hb)
    simpa using h
  · intro body hb
    have h := main_writes_skip ('/' :: '/' :: body) [] [] [] (by simp)
      (main_po_line_comment_open body hb) main_writes_nil
    simpa using h
  · intro q body rest hq hqb hbs
    rcases hq with rfl | rfl
    · have h := main_writes_silent ('\"' :: (body ++ ['\"'])) rest (by simp)
        (main_po_string_literal body rest hqb hbs)
      simpa using h
    · have h := main_writes_silent ('\'' :: (body ++ ['\''])) rest (by simp)
        (main_po_char_literal body rest hqb hbs)
      simpa using h

/-- C2 on the inputs of the specification: a line comment followed by
`int bar;` gives `int`, `bar`, and a string literal followed by ` baz` gives
`baz` only. -/
theorem C2_line_comment_and_literals_suppressed_witness :
    main.writes "// foo\nint bar;".toList ["int".toList, "bar".toList] ∧
    main.writes "\"hello world\" baz".toList ["baz".toList] := by
  obtain ⟨out, h1, h2⟩ := C2_line_comment_and_literals_suppressed.1 " foo".toList
    "int bar;".toList (by decide)
  obtain ⟨out2, h3, h4⟩ := C2_line_comment_and_literals_suppressed.2.2 '\"' "hello world".toList
    " baz".toList (Or.inl rfl) (by decide) (by decide)
  have e1 := main_writes_unique _ _ _ h2
    (main_writes_of_run "int bar;".toList ["int".toList, "bar".toList] true 9 (by decide))
  have e2 := main_writes_unique _ _ _ h4
    (main_writes_of_run " baz".toList ["baz".toList] true 5 (by decide))
  subst e1 e2
  exact ⟨h1, h3⟩

/-- C3 (the code at a failing input): on the terminated block comment `/* a*b */`
followed by ` c` the driver scan writes `a`, `b` and `c`, whereas the scan of
what follows the comment writes `c` only: the star inside the body makes
`parse_block_comment` fail, and the comment is scanned character by character. -/
theorem C3_block_comment_with_star_not_suppressed :
    (parse_block_comment "/* a*b */ c".toList 0 11).matched = false ∧
    main.writes "/* a*b */ c".toList ["a".toList, "b".toList, "c".toList] ∧
    main.writes " c".toList ["c".toList] :=
  ⟨by decide, main_writes_of_run _ _ true 12 (by decide), main_writes_of_run _ _ true 3 (by decide)⟩

theorem is_identifier_cons (c : Char) (cs : List Char) (h : is_identifier (c :: cs) = true) :
    is_id_first c = true ∧ ∀ d ∈ cs, is_id_rest d = true := by
  simp only [is_identifier, Bool.and_eq_true, List.all_eq_true] at h
  refine ⟨by rw [is_id_first_eq]; exact h.1, fun d hd => ?_⟩
  rw [is_id_rest_eq]
  exact h.2 d hd

/-- C4: tokens are written in input order: the driver scan of identifiers joined
by single spaces writes exactly these identifiers, in that order; the scan of the
empty input (no identifier at all) writes nothing. -/
theorem C4_tokens_in_input_order (ws : List (List Char))
    (h : ∀ w ∈ ws, is_identifier w = true) : main.writes ([' '].intercalate ws) ws := by
  induction ws with
  | nil => exact main_writes_nil
  | cons w ws ih =>
    have hw := h w (by simp)
    have hws : ∀ v ∈ ws, is_identifier v = true := fun v hv => h v (by simp [hv])
    cases w with
    | nil => simp [is_identifier] at hw
    | cons c cs =>
      obtain ⟨hc, hcs⟩ := is_identifier_cons c cs hw
      cases ws with
      | nil =>
        have hstep := main_po_identifier c cs [] hc hcs (by simp)
        have h2 := main_writes_skip (c :: cs) [] [c :: cs] [] (by simp) hstep main_writes_nil
        simpa [List.intercalate] using h2
      | cons v vs =>
        have hsp : main.writes (' ' :: [' '].intercalate (v :: vs)) (v :: vs) :=
          main_writes_wildcard ' ' _ _
            (by rw [parse_block_comment_fail_first _ 0 _ ' ' _ (range_all _) (by decide)])
            (by rw [parse_line_comment_fail_first _ 0 _ ' ' _ (range_all _) (by decide)])
            (by decide) (by decide) (by decide) (ih hws)
        have hstep := main_po_identifier c cs (' ' :: [' '].intercalate (v :: vs)) hc hcs
          (by simp; decide)
        have h2 := main_writes_skip (c :: cs) _ [c :: cs] _ (by simp) hstep hsp
        simpa [List.intercalate] using h2

/-- C4 on the input of the specification: `abc123 _x9` gives `abc123`, then `_x9`. -/
theorem C4_tokens_in_input_order_witness :
    main.writes "abc123 _x9".toList ["abc123".toList, "_x9".toList] :=
  C4_tokens_in_input_order ["abc123".toList, "_x9".toList] (by decide)

/-- C5: an unterminated block comment is no error: when `parse_block_comment`
fails on a slash, a star and `rest`, the driver scan of that input writes what the
scan of `rest` writes, the slash and the star being consumed one at a time by
`parse_a_char`. -/
theorem C5_unterminated_block_comment_falls_back (rest : List Char)
    (h : (parse_block_comment ('/' :: '*' :: rest) 0 ('/' :: '*' :: rest).length).matched
      = false) :
    (∃ out, main.writes ('/' :: '*' :: rest) out ∧ main.writes rest out) ∧
    main.po ('/' :: '*' :: rest) 0 ('/' :: '*' :: rest).length [] = (⟨true, 1⟩, []) ∧
    main.po ('/' :: '*' :: rest) 1 ('/' :: '*' :: rest).length [] = (⟨true, 2⟩, []) := by
  have hl : (parse_line_comment ('/' :: '*' :: rest) 0 ('/' :: '*' :: rest).length).matched
      = false := by
    rw [parse_line_comment_fail_second _ 0 _ '*' rest (range_all _) (by decide)]
  have hstar := main_po_wildcard '*' rest
    (by rw [parse_block_comment_fail_first _ 0 _ '*' _ (range_all _) (by decide)])
    (by rw [parse_line_comment_fail_first _ 0 _ '*' _ (range_all _) (by decide)])
    (by decide) (by decide) (by decide)
  have hslash := main_po_wildcard '/' ('*' :: rest) h hl (by decide) (by decide) (by decide)
  obtain ⟨out, hout⟩ := main_writes_total rest
  refine ⟨⟨out, ?_, hout⟩, by simpa using hslash, ?_⟩
  · have h1 := main_writes_skip ['*'] rest [] out (by simp) hstar hout
    have h2 := main_writes_skip ['/'] _ [] _ (by simp) hslash h1
    simpa using h2
  · have hs := main_po_shift ['/'] ('*' :: rest) 0 ('*' :: rest).length []
    simp only [List.singleton_append, List.length_singleton] at hs hstar
    rw [show ('/' :: '*' :: rest).length = 1 + ('*' :: rest).length by
      simp only [List.length_cons]; omega]
    rw [hs, hstar]
    rfl

/-- C5 on the input of the specification: `/* abc` gives exactly `abc`. -/
theorem C5_unterminated_block_comment_falls_back_witness :
    main.writes "/* abc".toList ["abc".toList] := by
  obtain ⟨⟨out, h1, h2⟩, _⟩ := C5_unterminated_block_comment_falls_back " abc".toList (by decide)
  have e := main_writes_unique _ _ _ h2
    (main_writes_of_run " abc".toList ["abc".toList] true 5 (by decide))
  subst e
  exact h1

/-- C6 as stated fails: on the eight characters `"a\"b" x` the driver scan does
not write `b`. -/
theorem C6_b_is_not_written :
    ¬ ∃ out, main.writes "\"a\\\"b\" x".toList out ∧ "b".toList ∈ out := by
  rintro ⟨out, h, hb⟩
  have e := main_writes_unique _ _ _ h
    (main_writes_of_run "\"a\\\"b\" x".toList ["a".toList, "x".toList] true 9 (by decide))
  subst e
  revert hb
  decide

/-- C6, amended: on the eight characters `"a\"b" x` the backslash makes
`parse_string_literal` fail at the opening quote, which `parse_a_char` consumes,
and `a` is written; the quote after the backslash then opens the literal `"b"`,
which `parse_string_literal` matches from position 3 to position 6, so `b` is
suppressed: the scan writes exactly `a`, then `x`. -/
theorem C6_backslash_literal_writes_a_and_x :
    parse_string_literal "\"a\\\"b\" x".toList 0 8 = ⟨false, 0⟩ ∧
    main.po "\"a\\\"b\" x".toList 0 8 [] = (⟨true, 1⟩, []) ∧
    parse_string_literal "\"a\\\"b\" x".toList 3 8 = ⟨true, 6⟩ ∧
    main.writes "\"a\\\"b\" x".toList ["a".toList, "x".toList] :=
  ⟨by decide, by decide, by decide, main_writes_of_run _ _ true 9 (by decide)⟩

/-! ## The identifier recognizer -/

theorem getElem_length_takeWhile (p : Char → Bool) (cs : List Char) (d : Char)
    (h : cs[(cs.takeWhile p).length]? = some d) : p d = false := by
  induction cs with
  | nil => simp at h
  | cons c cs ih =>
    by_cases hc : p c = true
    · simp only [List.takeWhile_cons, hc, if_true, List.length_cons,
        List.getElem?_cons_succ] at h
      exact ih h
    · simp only [List.takeWhile_cons, hc, Bool.false_eq_true, if_false, List.length_nil,
        List.getElem?_cons_zero, Option.some.injEq] at h
      rw [← h]
      simpa using hc

theorem take_length_takeWhile (p : Char → Bool) (cs : List Char) :
    cs.take (cs.takeWhile p).length = cs.takeWhile p := by
  induction cs with
  | nil => rfl
  | cons c cs ih =>
    by_cases hc : p c = true
    · simp [List.takeWhile_cons, hc, ih]
    · simp [List.takeWhile_cons, hc]

theorem is_id_rest_fun : is_id_rest = fun d : Char => d.isAlphanum || d == '_' :=
  funext is_id_rest_eq

/-- C11: `parse_identifier` implements `[A-Za-z_][A-Za-z0-9_]*` greedily: on an
input `[b, e)` whose first character is a letter or an underscore it matches, the
span `[b, pos)` is that character followed by the longest run of letters, digits
and underscores, and the character at `pos`, if `pos` is before `e`, is none of
these; on the empty input and on an input whose first character is neither a
letter nor an underscore it returns `matched = false` with `pos = b`. -/
theorem C11_parse_identifier_greedy (str : List Char) (b e : Nat) :
    (∀ (c : Char) (cs : List Char), range str b e = c :: cs →
        (c.isAlpha || c == '_') = true →
        parse_identifier str b e
            = ⟨true, b + 1 + (cs.takeWhile (fun d => d.isAlphanum || d == '_')).length⟩ ∧
        (range str b e).take ((parse_identifier str b e).pos - b)
            = c :: cs.takeWhile (fun d => d.isAlphanum || d == '_') ∧
        (∀ d : Char, (range str b e)[(parse_identifier str b e).pos - b]? = some d →
            (d.isAlphanum || d == '_') = false)) ∧
    ((∀ c ∈ (range str b e).head?, (c.isAlpha || c == '_') = false) →
        parse_identifier str b e = ⟨false, b⟩) := by
  constructor
  · intro c cs hr hc
    have hp : parse_identifier str b e
        = ⟨true, b + 1 + (cs.takeWhile (fun d => d.isAlphanum || d == '_')).length⟩ := by
      rw [parse_identifier_eq, hr]
      simp only [is_id_first_eq, hc, if_true, is_id_rest_fun]
    have h1 : b + 1 + (cs.takeWhile (fun d => d.isAlphanum || d == '_')).length - b
        = (cs.takeWhile (fun d => d.isAlphanum || d == '_')).length + 1 := by omega
    refine ⟨hp, ?_, ?_⟩
    · rw [hp, hr]
      simp only [h1, List.take_succ_cons, take_length_takeWhile]
    · intro d hd
      rw [hp, hr] at hd
      simp only [h1, List.getElem?_cons_succ] at hd
      exact getElem_length_takeWhile _ cs d hd
  · intro h
    rw [parse_identifier_eq]
    cases hr : range str b e with
    | nil => rfl
    | cons c cs =>
      have := h c (by rw [hr]; simp)
      simp [is_id_first_eq, this]

/-- C11 at concrete inputs: `abc123 _x9` from 0 and from 7, a digit first, and
the empty input. -/
theorem C11_parse_identifier_greedy_witness :
    parse_identifier "abc123 _x9".toList 0 10 = ⟨true, 6⟩ ∧
    parse_identifier "abc123 _x9".toList 7 10 = ⟨true, 10⟩ ∧
    parse_identifier "9ab".toList 0 3 = ⟨false, 0⟩ ∧
    parse_identifier [] 0 0 = ⟨false, 0⟩ :=
  ⟨((C11_parse_identifier_greedy "abc123 _x9".toList 0 10).1 'a' "bc123 _x9".toList
      (by decide) (by decide)).1,
    ((C11_parse_identifier_greedy "abc123 _x9".toList 7 10).1 '_' "x9".toList
      (by decide) (by decide)).1,
    (C11_parse_identifier_greedy "9ab".toList 0 3).2 (by decide),
    (C11_parse_identifier_greedy [] 0 0).2 (by decide)⟩

/-! ## The combinators -/

theorem or_pattern_loop_first {σ : Type} (str : List Char) (b e : Nat)
    (p : pattern_interface σ) (post : List (pattern_interface σ)) :
    ∀ (pre : List (pattern_interface σ)) (m : match_result) (st : σ),
      or_pattern.all_fail str b e pre st = true →
      (p str b e (or_pattern.state_after str b e pre st)).1.matched = true →
      or_pattern.loop str b e (pre ++ p :: post) m st
        = p str b e (or_pattern.state_after str b e pre st) := by
  intro pre
  induction pre with
  | nil =>
    intro m st _ hp
    simp only [or_pattern.state_after] at hp
    simp [or_pattern.loop, or_pattern.state_after, hp]
  | cons q qs ih =>
    intro m st hf hp
    simp only [or_pattern.all_fail, Bool.and_eq_true, Bool.not_eq_true'] at hf
    simp only [or_pattern.state_after] at hp
    simp only [List.cons_append, or_pattern.loop, hf.1, Bool.false_eq_true, if_false,
      or_pattern.state_after]
    exact ih _ _ hf.2 hp

theorem or_pattern_loop_none {σ : Type} (str : List Char) (b e : Nat) :
    ∀ (ps : List (pattern_interface σ)) (m : match_result) (st : σ),
      or_pattern.all_fail str b e ps st = true →
      or_pattern.loop str b e ps m st
        = (match ps.getLast? with
            | none => m
            | some q => (q str b e (or_pattern.state_after str b e ps.dropLast st)).1,
           or_pattern.state_after str b e ps st) := by
  intro ps
  induction ps with
  | nil => intro m st _; rfl
  | cons p ps ih =>
    intro m st hf
    simp only [or_pattern.all_fail, Bool.and_eq_true, Bool.not_eq_true'] at hf
    simp only [or_pattern.loop, hf.1, Bool.false_eq_true, if_false, or_pattern.state_after]
    rw [ih _ _ hf.2]
    cases ps with
    | nil => simp [or_pattern.state_after]
    | cons q qs =>
      simp only [List.getLast?_cons_cons, List.dropLast, or_pattern.state_after]
      rw [List.getLast?_eq_getLast (q :: qs) (List.cons_ne_nil q qs)]

theorem or_pattern_loop_none_matched {σ : Type} (str : List Char) (b e : Nat) :
    ∀ (ps : List (pattern_interface σ)) (m : match_result) (st : σ), m.matched = false →
      or_pattern.all_fail str b e ps st = true →
      (or_pattern.loop str b e ps m st).1.matched = false := by
  intro ps
  induction ps with
  | nil => intro m st hm _; exact hm
  | cons p ps ih =>
    intro m st _ hf
    simp only [or_pattern.all_fail, Bool.and_eq_true, Bool.not_eq_true'] at hf
    simp only [or_pattern.loop, hf.1, Bool.false_eq_true, if_false]
    exact ih _ _ hf.1 hf.2

/-- C12: `or_pattern` applies its operands in order, each at the same `(b, e)`.
When the operands before `p` all fail and `p` matches, the result (match result
and state) is exactly that of `p`: what follows `p` is not applied. When every
operand fails, the result has `matched = false`, the position reported by the
last operand (`b` when there is no operand), and the state the operands left. -/
theorem C12_or_pattern_first_match {σ : Type} (ps : List (pattern_interface σ))
    (str : List Char) (b e : Nat) (st : σ) :
    (∀ (pre : List (pattern_interface σ)) (p : pattern_interface σ)
        (post : List (pattern_interface σ)), ps = pre ++ p :: post →
        or_pattern.all_fail str b e pre st = true →
        (p str b e (or_pattern.state_after str b e pre st)).1.matched = true →
        or_pattern ps str b e st = p str b e (or_pattern.state_after str b e pre st)) ∧
    (or_pattern.all_fail str b e ps st = true →
        (or_pattern ps str b e st).1.matched = false ∧
        (or_pattern ps str b e st).1.pos
          = (match ps.getLast? with
              | none => b
              | some q => (q str b e (or_pattern.state_after str b e ps.dropLast st)).1.pos) ∧
        (or_pattern ps str b e st).2 = or_pattern.state_after str b e ps st) := by
  constructor
  · intro pre p post hps hf hp
    subst hps
    exact or_pattern_loop_first str b e p post pre _ st hf hp
  · intro hf
    refine ⟨or_pattern_loop_none_matched str b e ps _ st rfl hf, ?_, ?_⟩
    · unfold or_pattern
      rw [or_pattern_loop_none str b e ps _ st hf]
      cases ps.getLast? <;> rfl
    · unfold or_pattern
      rw [or_pattern_loop_none str b e ps _ st hf]

/-- C12 at concrete operands that record their application: the second operand
matches and the third is not applied; both operands fail and the position of the
last one is returned; no operand at all. -/
theorem C12_or_pattern_first_match_witness :
    or_pattern [probe 1 ⟨false, 5⟩, probe 2 ⟨true, 3⟩, probe 3 ⟨true, 4⟩] [] 1 9 []
      = (⟨true, 3⟩, [(1, 1), (2, 1)]) ∧
    (or_pattern [probe 1 ⟨false, 5⟩, probe 2 ⟨false, 7⟩] [] 1 9 []).1.pos = 7 ∧
    (or_pattern ([] : List (pattern_interface (List (Nat × Nat)))) [] 1 9 []).1.pos = 1 :=
  ⟨(C12_or_pattern_first_match [probe 1 ⟨false, 5⟩, probe 2 ⟨true, 3⟩, probe 3 ⟨true, 4⟩]
      [] 1 9 []).1 [probe 1 ⟨false, 5⟩] (probe 2 ⟨true, 3⟩) [probe 3 ⟨true, 4⟩] rfl rfl rfl,
    ((C12_or_pattern_first_match [probe 1 ⟨false, 5⟩, probe 2 ⟨false, 7⟩]
      [] 1 9 []).2 rfl).2.1,
    ((C12_or_pattern_first_match ([] : List (pattern_interface (List (Nat × Nat))))
      [] 1 9 []).2 rfl).2.1⟩

theorem and_pattern_loop_all {σ : Type} (str : List Char) (b e : Nat) :
    ∀ (ps : List (pattern_interface σ)) (m : match_result) (st : σ) (q : Nat) (st2 : σ),
      m.matched = true → and_pattern.chain str e ps m.pos st = some (q, st2) →
      and_pattern.loop str b e ps m st = (⟨true, q⟩, st2) := by
  intro ps
  induction ps with
  | nil =>
    intro m st q st2 hm hc
    simp only [and_pattern.chain, Option.some.injEq, Prod.mk.injEq] at hc
    cases m with
    | mk mm mp =>
      simp only at hm hc
      simp [and_pattern.loop, hm, hc.1, hc.2]
  | cons p ps ih =>
    intro m st q st2 _ hc
    by_cases hp : (p str m.pos e st).1.matched = true
    · simp only [and_pattern.chain, hp, if_true] at hc
      simp only [and_pattern.loop, hp, Bool.not_true, Bool.false_eq_true, if_false]
      exact ih _ _ q st2 hp hc
    · simp [and_pattern.chain, hp] at hc

theorem and_pattern_loop_fail {σ : Type} (str : List Char) (b e : Nat)
    (p : pattern_interface σ) (post : List (pattern_interface σ)) :
    ∀ (pre : List (pattern_interface σ)) (m : match_result) (st : σ) (q : Nat) (st2 : σ),
      and_pattern.chain str e pre m.pos st = some (q, st2) →
      (p str q e st2).1.matched = false →
      and_pattern.loop str b e (pre ++ p :: post) m st = (⟨false, b⟩, (p str q e st2).2) := by
  intro pre
  induction pre with
  | nil =>
    intro m st q st2 hc hp
    simp only [and_pattern.chain, Option.some.injEq, Prod.mk.injEq] at hc
    rw [← hc.1, ← hc.2] at hp
    simp [and_pattern.loop, hp, ← hc.1, ← hc.2]
  | cons r rs ih =>
    intro m st q st2 hc hp
    by_cases hr : (r str m.pos e st).1.matched = true
    · simp only [and_pattern.chain, hr, if_true] at hc
      simp only [List.cons_append, and_pattern.loop, hr, Bool.not_true, Bool.false_eq_true,
        if_false]
      exact ih _ _ q st2 hc hp
    · simp [and_pattern.chain, hr] at hc

/-- C14: `and_pattern` applies its operands in order, each from the position the
one before ended at. When all match, the result is `matched = true` with the end
position of the last one (`b` when there is no operand). When the operands before
`p` match and `p` fails, the result is `matched = false` with `pos = b`, whatever
position `p` reported, and the state is the one `p` left: what follows `p` is not
applied. -/
theorem C14_and_pattern_chain_or_reset {σ : Type} (ps : List (pattern_interface σ))
    (str : List Char) (b e : Nat) (st : σ) :
    (∀ (q : Nat) (st2 : σ), and_pattern.chain str e ps b st = some (q, st2) →
        and_pattern ps str b e st = (⟨true, q⟩, st2)) ∧
    (ps = [] → and_pattern ps str b e st = (⟨true, b⟩, st)) ∧
    (∀ (pre : List (pattern_interface σ)) (p : pattern_interface σ)
        (post : List (pattern_interface σ)) (q : Nat) (st2 : σ), ps = pre ++ p :: post →
        and_pattern.chain str e pre b st = some (q, st2) →
        (p str q e st2).1.matched = false →
        and_pattern ps str b e st = (⟨false, b⟩, (p str q e st2).2)) := by
  refine ⟨?_, ?_, ?_⟩
  · intro q st2 hc
    exact and_pattern_loop_all str b e ps ⟨true, b⟩ st q st2 rfl hc
  · intro h
    subst h
    rfl
  · intro pre p post q st2 hps hc hp
    subst hps
    exact and_pattern_loop_fail str b e p post pre ⟨true, b⟩ st q st2 hc hp

/-- C14 at concrete operands that record their application: two operands match
in a chain; the second of three fails at a position of its own and the third is
not applied; no operand at all. -/
theorem C14_and_pattern_chain_or_reset_witness :
    and_pattern [probe 1 ⟨true, 2⟩, probe 2 ⟨true, 5⟩] [] 1 9 []
      = (⟨true, 5⟩, [(1, 1), (2, 2)]) ∧
    and_pattern [probe 1 ⟨true, 2⟩, probe 2 ⟨false, 7⟩, probe 3 ⟨true, 8⟩] [] 1 9 []
      = (⟨false, 1⟩, [(1, 1), (2, 2)]) ∧
    and_pattern ([] : List (pattern_interface (List (Nat × Nat)))) [] 1 9 []
      = (⟨true, 1⟩, []) :=
  ⟨(C14_and_pattern_chain_or_reset [probe 1 ⟨true, 2⟩, probe 2 ⟨true, 5⟩] [] 1 9 []).1
      5 [(1, 1), (2, 2)] rfl,
    (C14_and_pattern_chain_or_reset [probe 1 ⟨true, 2⟩, probe 2 ⟨false, 7⟩, probe 3 ⟨true, 8⟩]
      [] 1 9 []).2.2 [probe 1 ⟨true, 2⟩] (probe 2 ⟨false, 7⟩) [probe 3 ⟨true, 8⟩]
      2 [(1, 1)] rfl rfl rfl,
    (C14_and_pattern_chain_or_reset ([] : List (pattern_interface (List (Nat × Nat))))
      [] 1 9 []).2.1 rfl⟩

/-- C15: `fn_pattern` with a callback returns exactly the result of the wrapped
recognizer; when that result is matched the callback is applied once, to the
characters of `[b, pos)` of the buffer, and when it is not matched the callback is
not applied (the state is unchanged). -/
theorem C15_fn_pattern_observes_match {σ : Type}
    (m_fn : List Char → Nat → Nat → match_result) (m_on_matched_fn : List Char → σ → σ)
    (str : List Char) (b e : Nat) (st : σ) :
    (fn_pattern m_fn m_on_matched_fn str b e st).1 = m_fn str b e ∧
    ((m_fn str b e).matched = true →
        (fn_pattern m_fn m_on_matched_fn str b e st).2
          = m_on_matched_fn ((str.drop b).take ((m_fn str b e).pos - b)) st) ∧
    ((m_fn str b e).matched = false →
        (fn_pattern m_fn m_on_matched_fn str b e st).2 = st) := by
  unfold fn_pattern
  refine ⟨?_, ?_, ?_⟩
  · simp only []
    split_ifs <;> rfl
  · intro h
    simp [h, range]
  · intro h
    simp [h]

/-- C15 on the identifier recognizer with a callback that records its argument:
one record, `abc`, when it matches, and none when it does not. -/
theorem C15_fn_pattern_observes_match_witness :
    fn_pattern parse_identifier print_line "x abc;".toList 2 6 ["x".toList]
      = (⟨true, 5⟩, ["x".toList, "abc".toList]) ∧
    fn_pattern parse_identifier print_line "x abc;".toList 1 6 ["x".toList]
      = (⟨false, 1⟩, ["x".toList]) :=
  ⟨Prod.ext (C15_fn_pattern_observes_match parse_identifier print_line "x abc;".toList 2 6
        ["x".toList]).1
      ((C15_fn_pattern_observes_match parse_identifier print_line "x abc;".toList 2 6
        ["x".toList]).2.1 (by decide)),
    Prod.ext (C15_fn_pattern_observes_match parse_identifier print_line "x abc;".toList 1 6
        ["x".toList]).1
      ((C15_fn_pattern_observes_match parse_identifier print_line "x abc;".toList 1 6
        ["x".toList]).2.2 (by decide))⟩

theorem n_pattern_loop_sound {σ : Type} (p : pattern_interface σ) (str : List Char) (e : Nat) :
    ∀ (fuel : Nat) (m : match_result) (st : σ) (r : match_result × σ),
      n_pattern.loop p str e fuel m st = some r →
      ∃ (q : Nat) (stq : σ), n_pattern.iterates p str e m.pos st q stq ∧
        ((q = e ∧ r.1.pos = e ∧ r.2 = stq ∧ (r.1 = m ∨ r.1.matched = true)) ∨
         (q ≠ e ∧ (p str q e stq).1.matched = false ∧ r = p str q e stq)) := by
  intro fuel
  induction fuel with
  | zero => intro m st r h; simp [n_pattern.loop] at h
  | succ n ih =>
    intro m st r h
    simp only [n_pattern.loop] at h
    split_ifs at h with h1 h2
    · simp only [Bool.not_eq_true'] at h2
      exact ⟨m.pos, st, n_pattern.iterates.refl _ _, Or.inr ⟨h1, h2, (Option.some.inj h).symm⟩⟩
    · simp only [Bool.not_eq_true', Bool.not_eq_false] at h2
      obtain ⟨q, stq, hit, hres⟩ := ih _ _ r h
      refine ⟨q, stq, n_pattern.iterates.step _ _ _ _ h1 h2 hit, ?_⟩
      rcases hres with ⟨hq, hp, hs, hm⟩ | hres
      · refine Or.inl ⟨hq, hp, hs, Or.inr ?_⟩
        rcases hm with hm | hm
        · rw [hm]; exact h2
        · exact hm
      · exact Or.inr hres
    · have hr : r = (m, st) := (Option.some.inj h).symm
      simp only [ne_eq, not_not] at h1
      exact ⟨m.pos, st, n_pattern.iterates.refl _ _, Or.inl ⟨h1, by rw [hr]; exact h1,
        by rw [hr], Or.inl (by rw [hr])⟩⟩

theorem n_pattern_loop_complete {σ : Type} (p : pattern_interface σ) (str : List Char)
    (e b : Nat) (st : σ) (q : Nat) (stq : σ) (hit : n_pattern.iterates p str e b st q stq)
    (hstop : q = e ∨ (p str q e stq).1.matched = false) :
    ∀ mt : Bool, ∃ (fuel : Nat) (r : match_result × σ),
      n_pattern.loop p str e fuel ⟨mt, b⟩ st = some r := by
  induction hit with
  | refl q st =>
    intro mt
    refine ⟨1, ?_⟩
    simp only [n_pattern.loop]
    by_cases hq : q = e
    · exact ⟨(⟨mt, q⟩, st), by simp [hq]⟩
    · have hf : (p str q e st).1.matched = false := hstop.resolve_left hq
      exact ⟨p str q e st, by simp [hq, hf]⟩
  | step q st q2 st2 hq hm _ ih =>
    intro mt
    obtain ⟨fuel, r, hr⟩ := ih hstop (p str q e st).1.matched
    refine ⟨fuel + 1, r, ?_⟩
    simp only [n_pattern.loop, ne_eq, hq, not_false_eq_true, if_true, hm, Bool.not_true,
      Bool.false_eq_true, if_false]
    exact hr

/-- C13 as stated fails: a repetition whose inner pattern fails returns that
failure. With `parse_identifier` as inner pattern, on `ab cd` the loop matches
`ab`, fails on the space and returns `matched = false`; on ` ab`, where the inner
pattern fails at `begin`, it returns `matched = false`; and with
`parse_string_literal` as inner pattern, on `xy` it returns `matched = false` with
the position 1 the failing recognizer reported. -/
theorem C13_inner_failure_is_returned :
    n_pattern (fn_pattern_void parse_identifier : pattern_interface Unit) true 3
        "ab cd".toList 0 5 () = some (⟨false, 2⟩, ()) ∧
    n_pattern (fn_pattern_void parse_identifier : pattern_interface Unit) true 1
        " ab".toList 0 3 () = some (⟨false, 0⟩, ()) ∧
    n_pattern (fn_pattern_void parse_string_literal : pattern_interface Unit) true 1
        "xy".toList 0 2 () = some (⟨false, 1⟩, ()) := by
  refine ⟨?_, ?_, ?_⟩ <;> decide

/-- C13, amended: when `n_pattern` returns, it has applied the inner pattern from
the current position for as long as it matched and the position was not `e`.
Either the position reached `e`: then `pos = e`, with `matched = true` when
`b ≠ e`. Or the inner pattern failed: then the result is the failing result of
the inner pattern, `matched = false` with the position it reported. When `b = e`
the inner pattern is not applied and `pos = b`. And whenever the applications
reach `e` or a failure, `n_pattern` returns. -/
theorem C13_n_pattern_stops_at_end_or_failure {σ : Type} (p : pattern_interface σ)
    (uninit : Bool) (str : List Char) (b e : Nat) (st : σ) :
    (∀ (fuel : Nat) (m : match_result) (st2 : σ),
      n_pattern p uninit fuel str b e st = some (m, st2) →
      ∃ (q : Nat) (stq : σ), n_pattern.iterates p str e b st q stq ∧
        ((q = e ∧ m.pos = e ∧ st2 = stq ∧ (b ≠ e → m.matched = true)) ∨
         (q ≠ e ∧ (p str q e stq).1.matched = false ∧ (m, st2) = p str q e stq))) ∧
    (b = e → ∀ fuel : Nat,
      (n_pattern p uninit (fuel + 1) str b e st).map (fun r => (r.1.pos, r.2)) = some (b, st)) ∧
    (∀ (q : Nat) (stq : σ), n_pattern.iterates p str e b st q stq →
      (q = e ∨ (p str q e stq).1.matched = false) →
      ∃ (fuel : Nat) (r : match_result × σ), n_pattern p uninit fuel str b e st = some r) := by
  refine ⟨?_, ?_, ?_⟩
  · intro fuel m st2 h
    obtain ⟨q, stq, hit, hres⟩ := n_pattern_loop_sound p str e fuel ⟨uninit, b⟩ st (m, st2) h
    refine ⟨q, stq, hit, ?_⟩
    rcases hres with ⟨hq, hp, hs, hm⟩ | hres
    · refine Or.inl ⟨hq, hp, hs, fun hbe => ?_⟩
      rcases hm with hm | hm
      · simp only at hm hp
        rw [hm] at hp
        exact absurd hp hbe
      · exact hm
    · exact Or.inr hres
  · intro hbe fuel
    simp [n_pattern, n_pattern.loop, hbe]
  · intro q stq hit hstop
    exact n_pattern_loop_complete p str e b st q stq hit hstop uninit

/-- C13, amended, at a concrete input: with `parse_identifier` as inner pattern
on `ab cd`, the applications lead from 0 to 2, where the inner pattern fails, and
the result is that failure. -/
theorem C13_n_pattern_stops_at_end_or_failure_witness :
    ∃ (q : Nat) (stq : Unit),
      n_pattern.iterates (fn_pattern_void parse_identifier) "ab cd".toList 5 0 () q stq ∧
        ((q = 5 ∧ (2 : Nat) = 5 ∧ () = stq ∧ ((0 : Nat) ≠ 5 → false = true)) ∨
         (q ≠ 5 ∧ (fn_pattern_void parse_identifier "ab cd".toList q 5 stq).1.matched = false ∧
           ((⟨false, 2⟩ : match_result), ()) = fn_pattern_void parse_identifier "ab cd".toList q 5 stq)) :=
  (C13_n_pattern_stops_at_end_or_failure (fn_pattern_void parse_identifier) true
    "ab cd".toList 0 5 ()).1 3 ⟨false, 2⟩ () (by decide)

/-! ## Positions returned by the leaf recognizers -/

theorem parse_string_literal_loop_pos (l : List Char) :
    ∀ (state : Int) (i : Nat) (m : match_result), m.pos ≤ i →
      m.pos ≤ (parse_string_literal.loop l state i m).pos ∧
        (parse_string_literal.loop l state i m).pos ≤ i + l.length := by
  induction l with
  | nil => intro state i m h; simpa [parse_string_literal.loop] using h
  | cons c cs ih =>
    intro state i m h
    simp only [parse_string_literal.loop, List.length_cons]
    split_ifs
    · have := ih literal.NORMAL (i + 1) m (by omega); omega
    · have := ih literal.FAILED (i + 1) { m with matched := false } (by simp only; omega)
      simp only at this ⊢; omega
    · omega
    · have := ih literal.COMPLETED (i + 1) { m with matched := true } (by simp only; omega)
      simp only at this ⊢; omega
    · have := ih state (i + 1) m (by omega); omega
    · have := ih literal.NORMAL (i + 1) m (by omega); omega
    · simp only; omega

theorem parse_char_literal_loop_pos (l : List Char) :
    ∀ (state : Int) (i : Nat) (m : match_result), m.pos ≤ i →
      m.pos ≤ (parse_char_literal.loop l state i m).pos ∧
        (parse_char_literal.loop l state i m).pos ≤ i + l.length := by
  induction l with
  | nil => intro state i m h; simpa [parse_char_literal.loop] using h
  | cons c cs ih =>
    intro state i m h
    simp only [parse_char_literal.loop, List.length_cons]
    split_ifs
    · have := ih literal.NORMAL (i + 1) m (by omega); omega
    · have := ih literal.FAILED (i + 1) { m with matched := false } (by simp only; omega)
      simp only at this ⊢; omega
    · omega
    · have := ih literal.COMPLETED (i + 1) { m with matched := true } (by simp only; omega)
      simp only at this ⊢; omega
    · have := ih state (i + 1) m (by omega); omega
    · have := ih literal.NORMAL (i + 1) m (by omega); omega
    · simp only; omega

/-- Every leaf returns a position of `[b, e]`. -/
theorem leaves_pos_bounds (str : List Char) (b e : Nat) (hbe : b ≤ e) :
    ∀ leaf ∈ leaves, b ≤ (leaf str b e).pos ∧ (leaf str b e).pos ≤ e := by
  have hr := range_length_le str b e
  intro leaf hl
  simp only [leaves, List.mem_cons, List.mem_singleton, List.not_mem_nil, or_false] at hl
  rcases hl with rfl | rfl | rfl | rfl | rfl | rfl | rfl
  · rcases parse_block_comment_cases str b e with h | ⟨_, h1, h2⟩
    · rw [h]; exact ⟨Nat.le_refl _, hbe⟩
    · omega
  · rcases parse_line_comment_cases str b e with h | ⟨_, h1, h2⟩
    · rw [h]; exact ⟨Nat.le_refl _, hbe⟩
    · omega
  · have := parse_string_literal_loop_pos (range str b e) literal.BEGIN b ⟨false, b⟩
      (Nat.le_refl _)
    simp only [parse_string_literal] at this ⊢
    omega
  · have := parse_char_literal_loop_pos (range str b e) literal.BEGIN b ⟨false, b⟩
      (Nat.le_refl _)
    simp only [parse_char_literal] at this ⊢
    omega
  · rcases parse_identifier_cases str b e with h | ⟨_, h1, h2⟩
    · rw [h]; exact ⟨Nat.le_refl _, hbe⟩
    · omega
  · unfold parse_a_char
    split_ifs with h
    · simp only; omega
    · simp only; omega
  · exact ⟨Nat.le_refl _, hbe⟩

/-- A leaf other than `parse_epsilon` that matches consumes a character. -/
theorem leaves_progress (str : List Char) (b e : Nat) :
    ∀ leaf ∈ leaves.dropLast, (leaf str b e).matched = true → b < (leaf str b e).pos := by
  intro leaf hl hm
  simp only [leaves, List.dropLast, List.mem_cons, List.mem_singleton, List.not_mem_nil,
    or_false] at hl
  rcases hl with rfl | rfl | rfl | rfl | rfl | rfl
  · rcases parse_block_comment_cases str b e with h | ⟨_, h1, _⟩
    · rw [h] at hm; simp at hm
    · exact h1
  · rcases parse_line_comment_cases str b e with h | ⟨_, h1, _⟩
    · rw [h] at hm; simp at hm
    · exact h1
  · exact (parse_string_literal_bounds str b e hm).1
  · exact (parse_char_literal_bounds str b e hm).1
  · rcases parse_identifier_cases str b e with h | ⟨_, h1, _⟩
    · rw [h] at hm; simp at hm
    · exact h1
  · by_cases h : b = e
    · simp [parse_a_char, h] at hm
    · simp [parse_a_char, h]

/-- Before the end of the input the alternation of `main` is decided by its first
six operands. -/
theorem main_po_without_epsilon (str : List Char) (b e : Nat) (st : stdout) (h : b < e) :
    main.po str b e st = or_pattern main.ps.dropLast str b e st := by
  have ha : (parse_a_char str b e).matched = true := by
    have hne : b ≠ e := by omega
    simp [parse_a_char, hne]
  simp only [main.po, main.ps, List.dropLast, or_pattern, or_pattern.loop, fn_pattern,
    fn_pattern_void, ha, if_true]

/-- C16 (the code at failing inputs): `parse_string_literal` and
`parse_char_literal` return `matched = false` with a position that is not
`begin`: one past `begin` when the opening quote is missing, and `end` when the
closing quote is absent. -/
theorem C16_literal_failure_moves_pos :
    parse_string_literal "xy".toList 0 2 = ⟨false, 1⟩ ∧
    parse_string_literal "\"xy".toList 0 3 = ⟨false, 3⟩ ∧
    parse_char_literal "xy".toList 0 2 = ⟨false, 1⟩ ∧
    parse_char_literal "\'xy".toList 0 3 = ⟨false, 3⟩ := by
  refine ⟨?_, ?_, ?_, ?_⟩ <;> decide

/-- The five other leaves keep `pos = b` when they do not match. -/
theorem leaves_failure_pos (str : List Char) (b e : Nat) :
    ∀ leaf ∈ [parse_block_comment, parse_line_comment, parse_identifier, parse_a_char,
        parse_epsilon], (leaf str b e).matched = false → (leaf str b e).pos = b := by
  intro leaf hl hm
  simp only [List.mem_cons, List.mem_singleton, List.not_mem_nil, or_false] at hl
  rcases hl with rfl | rfl | rfl | rfl | rfl
  · rcases parse_block_comment_cases str b e with h | ⟨h1, _, _⟩
    · rw [h]
    · rw [h1] at hm; simp at hm
  · rcases parse_line_comment_cases str b e with h | ⟨h1, _, _⟩
    · rw [h]
    · rw [h1] at hm; simp at hm
  · rcases parse_identifier_cases str b e with h | ⟨h1, _, _⟩
    · rw [h]
    · rw [h1] at hm; simp at hm
  · by_cases h : b = e
    · simp [parse_a_char, h]
    · simp [parse_a_char, h] at hm
  · rfl

/-- C17: for `b ≤ e` each of the seven leaf recognizers returns a position of
`[b, e]`, and each of them but `parse_epsilon` consumes at least one character
when it matches; so for `b < e` the alternation of `main` matches with
`b < pos ≤ e`, and its result is that of its first six operands: the epsilon
operand is not reached. -/
theorem C17_leaf_bounds_and_progress (str : List Char) (b e : Nat) (hbe : b ≤ e) :
    (∀ leaf ∈ leaves, b ≤ (leaf str b e).pos ∧ (leaf str b e).pos ≤ e) ∧
    (∀ leaf ∈ leaves.dropLast, (leaf str b e).matched = true → b < (leaf str b e).pos) ∧
    (b < e → ∀ st : stdout,
      (main.po str b e st).1.matched = true ∧ b < (main.po str b e st).1.pos ∧
      (main.po str b e st).1.pos ≤ e ∧
      main.po str b e st = or_pattern main.ps.dropLast str b e st) := by
  refine ⟨leaves_pos_bounds str b e hbe, leaves_progress str b e, fun h st => ?_⟩
  obtain ⟨h1, h2, h3⟩ := main_po_progress str b e st h
  exact ⟨h1, h2, h3, main_po_without_epsilon str b e st h⟩

/-- C17 at a concrete input: on `"a" b` from 0 the alternation matches the
literal, up to 3. -/
theorem C17_leaf_bounds_and_progress_witness :
    (main.po "\"a\" b".toList 0 5 []).1.matched = true ∧
    0 < (main.po "\"a\" b".toList 0 5 []).1.pos ∧
    (main.po "\"a\" b".toList 0 5 []).1.pos ≤ 5 ∧
    main.po "\"a\" b".toList 0 5 [] = or_pattern main.ps.dropLast "\"a\" b".toList 0 5 [] :=
  (C17_leaf_bounds_and_progress "\"a\" b".toList 0 5 (by decide)).2.2 (by decide) []

/-! ## What the scan writes -/

/-- The alternation of `main` writes nothing, or it writes the span matched by
`parse_identifier`. -/
theorem main_po_tokens (str : List Char) (b e : Nat) (st : stdout) :
    (main.po str b e st).2 = st ∨
      ((parse_identifier str b e).matched = true ∧
        (main.po str b e st).1 = parse_identifier str b e ∧
        (main.po str b e st).2 = st ++ [range str b (parse_identifier str b e).pos]) := by
  rw [main_po_eq]
  split_ifs with h1 h2 h3 h4 h5 h6
  · left; rfl
  · left; rfl
  · left; rfl
  · left; rfl
  · right; exact ⟨h5, rfl, rfl⟩
  · left; rfl
  · left; rfl

/-- A property of the position and of standard output that every application of
the alternation before `e` preserves holds when the loop of `main` returns. -/
theorem main_loop_induct (str : List Char) (e : Nat) (I : Nat → stdout → Prop)
    (hstep : ∀ (p : Nat) (st : stdout), p < e → I p st →
      I (main.po str p e st).1.pos (main.po str p e st).2) :
    ∀ (fuel : Nat) (m : match_result) (st : stdout) (r : match_result × stdout),
      m.pos ≤ e → I m.pos st → n_pattern.loop main.po str e fuel m st = some r →
      I r.1.pos r.2 := by
  intro fuel
  induction fuel with
  | zero => intro m st r _ _ h; simp [n_pattern.loop] at h
  | succ n ih =>
    intro m st r hle hI h
    simp only [n_pattern.loop] at h
    split_ifs at h with h1 h2
    · have hlt : m.pos < e := by omega
      rw [← Option.some.inj h]
      exact hstep m.pos st hlt hI
    · have hlt : m.pos < e := by omega
      exact ih _ _ r (main_po_progress str m.pos e st hlt).2.2 (hstep m.pos st hlt hI) h
    · rw [← Option.some.inj h]
      exact hI

theorem range_take (str : List Char) (b e n : Nat) (h : n ≤ (range str b e).length) :
    range str b (b + n) = (range str b e).take n := by
  have hl := range_length_le str b e
  simp only [range, Nat.add_sub_cancel_left, List.take_take]
  congr 1
  omega

/-- The span matched by `parse_identifier` is an identifier. -/
theorem parse_identifier_token (str : List Char) (b e : Nat)
    (h : (parse_identifier str b e).matched = true) :
    is_identifier (range str b (parse_identifier str b e).pos) = true := by
  rw [parse_identifier_eq] at h ⊢
  cases hr : range str b e with
  | nil => rw [hr] at h; simp at h
  | cons c cs =>
    rw [hr] at h
    simp only []
    by_cases hc : is_id_first c = true
    · simp only [hc, if_true]
      have hk := (List.takeWhile_sublist (l := cs) is_id_rest).length_le
      rw [Nat.add_assoc, range_take str b e _ (by rw [hr, List.length_cons]; omega), hr,
        Nat.add_comm 1, List.take_succ_cons, take_length_takeWhile]
      simp only [is_identifier, Bool.and_eq_true, List.all_eq_true]
      refine ⟨by rw [← is_id_first_eq]; exact hc, fun d hd => ?_⟩
      rw [← is_id_rest_eq]
      exact List.mem_takeWhile_imp hd
    · simp [hc] at h

/-- Every line the program writes is an identifier. -/
theorem main_writes_identifiers (str : List Char) (out : stdout) (h : main.writes str out) :
    ∀ t ∈ out, is_identifier t = true := by
  have hrun := h true (str.length + 1) (by omega)
  unfold main main.scan n_pattern at hrun
  cases hl : n_pattern.loop main.po str str.length (str.length + 1) ⟨true, 0⟩ [] with
  | none => rw [hl] at hrun; simp at hrun
  | some r =>
    rw [hl] at hrun
    simp only [Option.map_some', Option.some.injEq] at hrun
    have := main_loop_induct str str.length (fun _ st => ∀ t ∈ st, is_identifier t = true)
      (fun p st _ hI => by
        rcases main_po_tokens str p str.length st with h1 | ⟨h1, _, h3⟩
        · rw [h1]; exact hI
        · rw [h3]
          intro t ht
          rcases List.mem_append.mp ht with ht | ht
          · exact hI t ht
          · rw [List.mem_singleton.mp ht]
            exact parse_identifier_token str p str.length h1)
      _ _ [] r (Nat.zero_le _) (by simp) hl
    rw [← hrun]
    exact this

theorem identifier_char_plain (ch : Char) (h : (ch.isAlphanum || ch == '_') = true) :
    ch ≠ '\"' ∧ ch ≠ '\'' ∧ ch ≠ '/' ∧ ch ≠ '\\' ∧ ch ≠ '*' ∧ ch.isWhitespace = false := by
  refine ⟨?_, ?_, ?_, ?_, ?_, ?_⟩
  · rintro rfl; revert h; decide
  · rintro rfl; revert h; decide
  · rintro rfl; revert h; decide
  · rintro rfl; revert h; decide
  · rintro rfl; revert h; decide
  · cases hw : ch.isWhitespace with
    | false => rfl
    | true =>
      simp only [Char.isWhitespace, Bool.or_eq_true, beq_iff_eq, decide_eq_true_eq] at hw
      rcases hw with ((rfl | rfl) | rfl) | rfl <;> revert h <;> decide

theorem is_identifier_chars (t : List Char) (h : is_identifier t = true) :
    ∀ ch ∈ t, (ch.isAlphanum || ch == '_') = true := by
  cases t with
  | nil => simp
  | cons c cs =>
    simp only [is_identifier, Bool.and_eq_true, List.all_eq_true] at h
    intro ch hch
    rcases List.mem_cons.mp hch with rfl | hch
    · have h1 := h.1
      simp only [Char.isAlphanum, Bool.or_eq_true] at h1 ⊢
      rcases h1 with h1 | h1
      · exact Or.inl (Or.inl h1)
      · exact Or.inr h1
    · exact h.2 ch hch

/-- C18: every token the driver scan writes is not empty, starts with a letter or
an underscore and goes on with letters, digits and underscores; none of its
characters is a quote, a slash, a backslash, a star or white space. -/
theorem C18_tokens_are_identifiers (str : List Char) (out : stdout)
    (h : main.writes str out) :
    ∀ t ∈ out, t ≠ [] ∧ is_identifier t = true ∧
      ∀ ch ∈ t, ch ≠ '\"' ∧ ch ≠ '\'' ∧ ch ≠ '/' ∧ ch ≠ '\\' ∧ ch ≠ '*' ∧
        ch.isWhitespace = false := by
  intro t ht
  have hid := main_writes_identifiers str out h t ht
  refine ⟨?_, hid, fun ch hch => identifier_char_plain ch (is_identifier_chars t hid ch hch)⟩
  rintro rfl
  simp [is_identifier] at hid

/-- C18 on an input with comments, literals and operators around its
identifiers: the two tokens written, `x1` and `_y`. -/
theorem C18_tokens_are_identifiers_witness :
    ("x1".toList ≠ [] ∧ is_identifier "x1".toList = true) ∧
    ("_y".toList ≠ [] ∧ is_identifier "_y".toList = true) ∧
    ('_' ≠ '/' ∧ '_'.isWhitespace = false) :=
  ⟨⟨(C18_tokens_are_identifiers "x1 = \"a b\" /* c */ * _y; // d".toList
        ["x1".toList, "_y".toList] (main_writes_of_run _ _ true 31 (by decide))
        "x1".toList (by decide)).1,
      (C18_tokens_are_identifiers "x1 = \"a b\" /* c */ * _y; // d".toList
        ["x1".toList, "_y".toList] (main_writes_of_run _ _ true 31 (by decide))
        "x1".toList (by decide)).2.1⟩,
    ⟨(C18_tokens_are_identifiers "x1 = \"a b\" /* c */ * _y; // d".toList
        ["x1".toList, "_y".toList] (main_writes_of_run _ _ true 31 (by decide))
        "_y".toList (by decide)).1,
      (C18_tokens_are_identifiers "x1 = \"a b\" /* c */ * _y; // d".toList
        ["x1".toList, "_y".toList] (main_writes_of_run _ _ true 31 (by decide))
        "_y".toList (by decide)).2.1⟩,
    ⟨((C18_tokens_are_identifiers "x1 = \"a b\" /* c */ * _y; // d".toList
        ["x1".toList, "_y".toList] (main_writes_of_run _ _ true 31 (by decide))
        "_y".toList (by decide)).2.2 '_' (by decide)).2.2.1,
      ((C18_tokens_are_identifiers "x1 = \"a b\" /* c */ * _y; // d".toList
        ["x1".toList, "_y".toList] (main_writes_of_run _ _ true 31 (by decide))
        "_y".toList (by decide)).2.2 '_' (by decide)).2.2.2.2.2⟩⟩

theorem stdout_text_cons (t : List Char) (ts : stdout) :
    stdout_text (t :: ts) = t ++ '\n' :: stdout_text ts := by
  simp [stdout_text]

/-- The scan of identifiers, each followed by a newline, writes them back. -/
theorem main_writes_lines (ws : stdout) (h : ∀ w ∈ ws, is_identifier w = true) :
    main.writes (stdout_text ws) ws := by
  induction ws with
  | nil => exact main_writes_nil
  | cons w ws ih =>
    have hw := h w (by simp)
    have hws : ∀ v ∈ ws, is_identifier v = true := fun v hv => h v (by simp [hv])
    cases w with
    | nil => simp [is_identifier] at hw
    | cons c cs =>
      obtain ⟨hc, hcs⟩ := is_identifier_cons c cs hw
      have hnl : main.writes ('\n' :: stdout_text ws) ws :=
        main_writes_wildcard '\n' _ _
          (by rw [parse_block_comment_fail_first _ 0 _ '\n' _ (range_all _) (by decide)])
          (by rw [parse_line_comment_fail_first _ 0 _ '\n' _ (range_all _) (by decide)])
          (by decide) (by decide) (by decide) (ih hws)
      have hstep := main_po_identifier c cs ('\n' :: stdout_text ws) hc hcs (by simp; decide)
      have h2 := main_writes_skip (c :: cs) _ [c :: cs] _ (by simp) hstep hnl
      rw [stdout_text_cons]
      simpa using h2

/-- C19: the filter is idempotent on its own output: the driver scan of the text
written for an input (each token followed by a newline) writes exactly the tokens
written for that input. -/
theorem C19_idempotent_on_output (str : List Char) (out : stdout)
    (h : main.writes str out) : main.writes (stdout_text out) out :=
  main_writes_lines out (main_writes_identifiers str out h)

/-- C19 on an input with comments, literals and operators: the scan of the two
lines written gives the same two tokens. -/
theorem C19_idempotent_on_output_witness :
    main.writes "x1\n_y\n".toList ["x1".toList, "_y".toList] :=
  C19_idempotent_on_output "x1 = \"a b\" /* c */ * _y; // d".toList
    ["x1".toList, "_y".toList] (main_writes_of_run _ _ true 31 (by decide))

theorem range_infix (str : List Char) (b e : Nat) : range str b e <:+: str :=
  (List.take_prefix _ _).isInfix.trans (List.drop_suffix _ _).isInfix

theorem take_append_range (str : List Char) (p q : Nat) (h : p ≤ q) :
    str.take p ++ range str p q = str.take q := by
  have hq : q = p + (q - p) := by omega
  rw [range]
  conv_rhs => rw [hq, List.take_add]

/-- The tokens written are spans of the buffer taken from left to right. -/
theorem main_writes_spans (str : List Char) (out : stdout) (h : main.writes str out) :
    out.flatten.Sublist str ∧ ∀ t ∈ out, t <:+: str := by
  have hrun := h true (str.length + 1) (by omega)
  unfold main main.scan n_pattern at hrun
  cases hl : n_pattern.loop main.po str str.length (str.length + 1) ⟨true, 0⟩ [] with
  | none => rw [hl] at hrun; simp at hrun
  | some r =>
    rw [hl] at hrun
    simp only [Option.map_some', Option.some.injEq] at hrun
    have := main_loop_induct str str.length
      (fun p st => st.flatten.Sublist (str.take p) ∧ ∀ t ∈ st, t <:+: str)
      (fun p st hp hI => by
        have hprog := main_po_progress str p str.length st hp
        rcases main_po_tokens str p str.length st with h1 | ⟨_, h2, h3⟩
        · rw [h1]
          exact ⟨hI.1.trans (List.take_sublist_take_left str (by omega)), hI.2⟩
        · rw [h3]
          rw [h2] at hprog
          constructor
          · rw [h2, List.flatten_concat, ← take_append_range str p _ (by omega)]
            exact hI.1.append (List.Sublist.refl _)
          · intro t ht
            rcases List.mem_append.mp ht with ht | ht
            · exact hI.2 t ht
            · rw [List.mem_singleton.mp ht]
              exact range_infix str p _)
      _ _ [] r (Nat.zero_le _) (by simp) hl
    rw [← hrun]
    exact ⟨this.1.trans (List.take_sublist _ _), this.2⟩

/-- C20: the tokens written, concatenated in the order they are written, are a
subsequence of the input (characters are dropped, never reordered, repeated or
invented), and each token is a contiguous part of the input. -/
theorem C20_tokens_are_spans_in_order (str : List Char) (out : stdout)
    (h : main.writes str out) : out.flatten.Sublist str ∧ ∀ t ∈ out, t <:+: str :=
  main_writes_spans str out h

/-- C20 on an input with comments, literals and operators. -/
theorem C20_tokens_are_spans_in_order_witness :
    ["x1".toList, "_y".toList].flatten.Sublist "x1 = \"a b\" /* c */ * _y; // d".toList ∧
    ∀ t ∈ ["x1".toList, "_y".toList], t <:+: "x1 = \"a b\" /* c */ * _y; // d".toList :=
  C20_tokens_are_spans_in_order "x1 = \"a b\" /* c */ * _y; // d".toList
    ["x1".toList, "_y".toList] (main_writes_of_run _ _ true 31 (by decide))

end idfilter
